import Mathlib

/-!
Verification of the chunked-compression encoder of containers/storage
(`pkg/chunked/compressor/compressor.go`): the sparse-hole detector
(`holesFinder.readByte`), the content-defined chunk reader
(`rollingChecksumReader.Read`), the per-entry stream orchestrator
(`writeZstdChunkedStream`), and the asynchronous pipe writer
(`zstdChunkedWriter`).

The Go code is embedded shallowly: machine integers become `Nat`/`Int`
(none of the relevant quantities can overflow or go negative where we use
`Nat`), byte streams become `List Nat`, the `bufio.Reader` the hole finder
reads from becomes a list of available bytes followed by a sticky terminal
error, and fallible operations return `Option IOErr`.  Loops are embedded
as fuel-indexed structural recursions so that every definition is
executable by the kernel; unfold lemmas proved below let us reason about
them exactly as about the original recursive loops.
-/

namespace ChunkedCompressor

/-- Errors visible to the embedded code.  `eof` models `io.EOF`,
`closedPipe` models `io.ErrClosedPipe`, `other n` models any other error
value (indexed by a code). -/
inductive IOErr where
  | eof
  | closedPipe
  | other (code : Nat)
deriving DecidableEq, Repr

/-- A byte source, modelling the `bufio.Reader` the holesFinder reads
from: a finite list of available bytes followed by a sticky terminal
error (`.eof` for a normally terminated stream).  `UnreadByte` after a
successful `ReadByte` pushes the byte back on the front. -/
structure ByteSrc where
  bytes : List Nat
  fin : IOErr
deriving DecidableEq, Repr

/-- The four states of the holesFinder state machine
(`holesFinderStateRead/Accumulate/Found/EOF` in the source). -/
inductive HFState where
  | read
  | accumulate
  | found
  | eofS
deriving DecidableEq, Repr

/-- The `holesFinder` struct: underlying reader, pending zero count,
threshold, and state. -/
structure HolesFinder where
  source : ByteSrc
  zeros : Nat
  threshold : Nat
  state : HFState
deriving DecidableEq, Repr

/-- Rank used in the termination measure for `readByte`: every iteration
of the Go loop either returns or strictly decreases
`2 * |source| + hfRank state`. -/
def hfRank : HFState → Nat
  | .eofS => 0
  | .found => 1
  | .read => 2
  | .accumulate => 3

def hfMeasure (f : HolesFinder) : Nat :=
  2 * f.source.bytes.length + hfRank f.state

/-- `holesFinder.readByte`, fuel-indexed.  One call of the Go method runs
the `for { switch f.state { ... } }` loop until a `return`; each loop
iteration is one recursive call here.  The result is
`((holeLength, byte, error), updated finder)`.  Fuel exhaustion (never
reached when called through `hfReadByte`) yields a designated junk
result. -/
def hfReadByteF : Nat → HolesFinder → (Nat × Nat × Option IOErr) × HolesFinder
  | 0, f => ((0, 0, some (IOErr.other 9999)), f)
  | fuel + 1, f =>
    match f.state with
    | .read =>
      if 0 < f.zeros then
        ((0, 0, none), { f with zeros := f.zeros - 1 })
      else
        match f.source.bytes with
        | [] => ((0, 0, some f.source.fin), f)
        | b :: rest =>
          if b ≠ 0 then
            ((0, b, none), { f with source := { f.source with bytes := rest } })
          else
            hfReadByteF fuel { f with
              source := { f.source with bytes := rest }
              zeros := 1
              state := if 1 = f.threshold then .found else .accumulate }
    | .accumulate =>
      match f.source.bytes with
      | [] =>
        if f.source.fin = .eof then
          hfReadByteF fuel { f with state := .eofS }
        else
          ((0, 0, some f.source.fin), f)
      | b :: rest =>
        if b = 0 then
          hfReadByteF fuel { f with
            source := { f.source with bytes := rest }
            zeros := f.zeros + 1
            state := if f.zeros + 1 = f.threshold then .found else .accumulate }
        else
          -- ReadByte followed by UnreadByte: the source is unchanged.
          hfReadByteF fuel { f with state := .read }
    | .found =>
      match f.source.bytes with
      | [] =>
        if f.source.fin = .eof then
          ((f.zeros, 0, none), { f with zeros := 0, state := .eofS })
        else
          ((f.zeros, 0, none), { f with zeros := 0 })
      | b :: rest =>
        if b ≠ 0 then
          -- ReadByte followed by UnreadByte: the source is unchanged.
          ((f.zeros, 0, none), { f with zeros := 0, state := .read })
        else
          hfReadByteF fuel { f with
            source := { f.source with bytes := rest }
            zeros := f.zeros + 1 }
    | .eofS =>
      if 0 < f.zeros then
        ((0, 0, none), { f with zeros := f.zeros - 1 })
      else
        ((0, 0, some .eof), f)

/-- `holesFinder.readByte`: the fuel `hfMeasure f + 1` always suffices
(`hfReadByteF_mono` below). -/
def hfReadByte (f : HolesFinder) : (Nat × Nat × Option IOErr) × HolesFinder :=
  hfReadByteF (hfMeasure f + 1) f

theorem hfReadByteF_mono :
    ∀ (n m : Nat) (f : HolesFinder), hfMeasure f < n → hfMeasure f < m →
      hfReadByteF n f = hfReadByteF m f := by
  intro n
  induction n using Nat.strong_induction_on with
  | _ n ih =>
    intro m f hn hm
    match n, m with
    | n' + 1, m' + 1 =>
      show hfReadByteF (n' + 1) f = hfReadByteF (m' + 1) f
      simp only [hfReadByteF]
      cases hst : f.state with
      | read =>
        by_cases hz : 0 < f.zeros
        · simp [hz]
        · simp only [hz, if_false]
          cases hb : f.source.bytes with
          | nil => rfl
          | cons b rest =>
            by_cases hb0 : b ≠ 0
            · simp [hb0]
            · simp only [hb0, if_false]
              apply ih n' (by omega)
              all_goals
                have hle : hfRank (if 1 = f.threshold then HFState.found else .accumulate) ≤ 3 := by
                  split <;> simp [hfRank]
              all_goals
                simp only [hfMeasure, hst, hb, hfRank, List.length_cons] at hn hm
              all_goals
                simp only [hfMeasure, List.length_cons]
              · omega
              · omega
      | accumulate =>
        cases hb : f.source.bytes with
        | nil =>
          by_cases hfin : f.source.fin = .eof
          · simp only [hfin, if_true]
            apply ih n' (by omega)
            all_goals
              simp only [hfMeasure, hst, hb, hfRank, List.length_nil] at hn hm ⊢
            · omega
            · omega
          · simp [hfin]
        | cons b rest =>
          by_cases hb0 : b = 0
          · simp only [hb0, if_true]
            apply ih n' (by omega)
            all_goals
              have hle : hfRank (if f.zeros + 1 = f.threshold then HFState.found else .accumulate) ≤ 3 := by
                split <;> simp [hfRank]
            all_goals
              simp only [hfMeasure, hst, hb, hfRank, List.length_cons] at hn hm
            all_goals
              simp only [hfMeasure, List.length_cons]
            · omega
            · omega
          · simp only [hb0, if_false]
            apply ih n' (by omega)
            all_goals
              simp only [hfMeasure, hst, hb, hfRank, List.length_cons] at hn hm ⊢
            · omega
            · omega
      | found =>
        cases hb : f.source.bytes with
        | nil => rfl
        | cons b rest =>
          by_cases hb0 : b ≠ 0
          · simp [hb0]
          · simp only [hb0, if_false]
            apply ih n' (by omega)
            all_goals
              simp only [hfMeasure, hst, hb, hfRank, List.length_cons] at hn hm ⊢
            · omega
            · omega
      | eofS => rfl

theorem hfReadByteF_eq_hfReadByte (n : Nat) (f : HolesFinder) (h : hfMeasure f < n) :
    hfReadByteF n f = hfReadByte f :=
  hfReadByteF_mono n (hfMeasure f + 1) f h (Nat.lt_succ_self _)

theorem hfMeasure_read_zero (f : HolesFinder) (b : Nat) (rest : List Nat)
    (hst : f.state = .read) (hb : f.source.bytes = b :: rest) :
    hfMeasure ⟨⟨rest, f.source.fin⟩, 1, f.threshold,
      if 1 = f.threshold then .found else .accumulate⟩ < hfMeasure f := by
  have hle : hfRank (if 1 = f.threshold then HFState.found else .accumulate) ≤ 3 := by
    split <;> simp [hfRank]
  simp only [hfMeasure, hst, hb, List.length_cons, hfRank] at hle ⊢
  omega

theorem hfMeasure_acc_eof (f : HolesFinder)
    (hst : f.state = .accumulate) (hb : f.source.bytes = []) :
    hfMeasure { f with state := .eofS } < hfMeasure f := by
  simp only [hfMeasure, hst, hb, hfRank, List.length_nil]
  omega

theorem hfMeasure_acc_zero (f : HolesFinder) (rest : List Nat)
    (hst : f.state = .accumulate) (hb : f.source.bytes = 0 :: rest) :
    hfMeasure ⟨⟨rest, f.source.fin⟩, f.zeros + 1, f.threshold,
      if f.zeros + 1 = f.threshold then .found else .accumulate⟩ < hfMeasure f := by
  have hle : hfRank (if f.zeros + 1 = f.threshold then HFState.found else .accumulate) ≤ 3 := by
    split <;> simp [hfRank]
  simp only [hfMeasure, hst, hb, List.length_cons, hfRank] at hle ⊢
  omega

theorem hfMeasure_acc_nonzero (f : HolesFinder) (b : Nat) (rest : List Nat)
    (hst : f.state = .accumulate) (_hb : f.source.bytes = b :: rest) :
    hfMeasure { f with state := .read } < hfMeasure f := by
  simp only [hfMeasure, hst, hfRank]
  omega

theorem hfMeasure_found_zero (f : HolesFinder) (rest : List Nat)
    (hst : f.state = .found) (hb : f.source.bytes = 0 :: rest) :
    hfMeasure ⟨⟨rest, f.source.fin⟩, f.zeros + 1, f.threshold, .found⟩ < hfMeasure f := by
  simp only [hfMeasure, hst, hb, List.length_cons, hfRank]
  omega

/-- The Go `readByte` loop, expressed as a single unfolding of the state
machine: every `continue` of the loop body is a recursive call of
`hfReadByte` itself. -/
theorem hfReadByte_eq (f : HolesFinder) :
    hfReadByte f =
      match f.state with
      | .read =>
        if 0 < f.zeros then
          ((0, 0, none), { f with zeros := f.zeros - 1 })
        else
          match f.source.bytes with
          | [] => ((0, 0, some f.source.fin), f)
          | b :: rest =>
            if b ≠ 0 then
              ((0, b, none), { f with source := { f.source with bytes := rest } })
            else
              hfReadByte { f with
                source := { f.source with bytes := rest }
                zeros := 1
                state := if 1 = f.threshold then .found else .accumulate }
      | .accumulate =>
        match f.source.bytes with
        | [] =>
          if f.source.fin = .eof then
            hfReadByte { f with state := .eofS }
          else
            ((0, 0, some f.source.fin), f)
        | b :: rest =>
          if b = 0 then
            hfReadByte { f with
              source := { f.source with bytes := rest }
              zeros := f.zeros + 1
              state := if f.zeros + 1 = f.threshold then .found else .accumulate }
          else
            hfReadByte { f with state := .read }
      | .found =>
        match f.source.bytes with
        | [] =>
          if f.source.fin = .eof then
            ((f.zeros, 0, none), { f with zeros := 0, state := .eofS })
          else
            ((f.zeros, 0, none), { f with zeros := 0 })
        | b :: rest =>
          if b ≠ 0 then
            ((f.zeros, 0, none), { f with zeros := 0, state := .read })
          else
            hfReadByte { f with
              source := { f.source with bytes := rest }
              zeros := f.zeros + 1 }
      | .eofS =>
        if 0 < f.zeros then
          ((0, 0, none), { f with zeros := f.zeros - 1 })
        else
          ((0, 0, some .eof), f) := by
  conv_lhs => rw [hfReadByte]
  rw [show hfMeasure f + 1 = hfMeasure f + 1 from rfl]
  simp only [hfReadByteF]
  cases hst : f.state with
  | read =>
    by_cases hz : 0 < f.zeros
    · simp [hz]
    · simp only [hz, if_false]
      cases hb : f.source.bytes with
      | nil => rfl
      | cons b rest =>
        by_cases hb0 : b ≠ 0
        · simp [hb0]
        · simp only [hb0, if_false]
          simp only [not_not] at hb0
          subst hb0
          exact hfReadByteF_eq_hfReadByte _ _ (hfMeasure_read_zero f 0 rest hst hb)
  | accumulate =>
    cases hb : f.source.bytes with
    | nil =>
      by_cases hfin : f.source.fin = .eof
      · simp only [hfin, if_true]
        exact hfReadByteF_eq_hfReadByte _ _ (hfMeasure_acc_eof f hst hb)
      · simp [hfin]
    | cons b rest =>
      by_cases hb0 : b = 0
      · simp only [hb0, if_true]
        subst hb0
        exact hfReadByteF_eq_hfReadByte _ _ (hfMeasure_acc_zero f rest hst hb)
      · simp only [hb0, if_false]
        exact hfReadByteF_eq_hfReadByte _ _ (hfMeasure_acc_nonzero f b rest hst hb)
  | found =>
    cases hb : f.source.bytes with
    | nil => rfl
    | cons b rest =>
      by_cases hb0 : b ≠ 0
      · simp [hb0]
      · simp only [hb0, if_false]
        simp only [not_not] at hb0
        subst hb0
        exact hfReadByteF_eq_hfReadByte _ _ (hfMeasure_found_zero f rest hst hb)
  | eofS => rfl

/-- Denotation of a holesFinder state: the logical byte stream it still has
to deliver — pending (replayable or hole) zeros followed by the unread
source bytes. -/
def den (f : HolesFinder) : List Nat :=
  List.replicate f.zeros 0 ++ f.source.bytes

/-- Reachable-state invariant of the holesFinder over a cleanly terminated
(EOF) source: in state `eofS` the source is exhausted, and in state `found`
at least one zero has been accumulated. -/
def WFhf (f : HolesFinder) : Prop :=
  f.source.fin = .eof ∧
  (f.state = .eofS → f.source.bytes = []) ∧
  (f.state = .found → 1 ≤ f.zeros)

/-- What one `readByte` call does, seen through the denotation: it emits a
literal byte, a hole of length `h ≥ 1` (standing for `h` zero bytes), or a
clean end-of-stream. -/
def HFStep (f : HolesFinder) (r : (Nat × Nat × Option IOErr) × HolesFinder) : Prop :=
  WFhf r.2 ∧ r.2.threshold = f.threshold ∧
  ( (∃ b, r.1 = (0, b, none) ∧ den f = b :: den r.2) ∨
    (∃ h, 1 ≤ h ∧ r.1 = (h, 0, none) ∧ den f = List.replicate h 0 ++ den r.2) ∨
    (r.1 = (0, 0, some .eof) ∧ den f = [] ∧ den r.2 = []) )

theorem HFStep_congr (f g : HolesFinder) (r : (Nat × Nat × Option IOErr) × HolesFinder)
    (hden : den f = den g) (hthr : g.threshold = f.threshold) (h : HFStep g r) :
    HFStep f r := by
  obtain ⟨hwf, ht, hc⟩ := h
  refine ⟨hwf, ht.trans hthr, ?_⟩
  rw [hden]
  exact hc

theorem hfReadByte_spec : ∀ f : HolesFinder, WFhf f → HFStep f (hfReadByte f) := by
  suffices H : ∀ (n : Nat) (f : HolesFinder), hfMeasure f ≤ n → WFhf f →
      HFStep f (hfReadByte f) from fun f hwf => H (hfMeasure f) f le_rfl hwf
  intro n
  induction n using Nat.strong_induction_on with
  | _ n ih =>
    intro f hle hwf
    obtain ⟨hfin, heofS, hfound⟩ := hwf
    rw [hfReadByte_eq]
    cases hst : f.state with
    | read =>
      simp only
      by_cases hz : 0 < f.zeros
      · -- replay one resolved zero
        obtain ⟨z, hz1⟩ : ∃ z, f.zeros = z + 1 := ⟨f.zeros - 1, by omega⟩
        rw [if_pos hz]
        refine ⟨⟨hfin, by simp [hst], by simp [hst]⟩, rfl, Or.inl ⟨0, rfl, ?_⟩⟩
        simp [den, hz1, List.replicate_succ]
      · rw [if_neg hz]
        cases hb : f.source.bytes with
        | nil =>
          -- end of stream (error = source fin = eof)
          refine ⟨⟨hfin, by simp [hst], by simp [hst]⟩, rfl, Or.inr (Or.inr ?_)⟩
          have hz0 : f.zeros = 0 := by omega
          exact ⟨by rw [hfin], by simp [den, hz0, hb], by simp [den, hz0, hb]⟩
        | cons b rest =>
          simp only
          by_cases hb0 : b ≠ 0
          · -- literal nonzero byte
            rw [if_pos hb0]
            refine ⟨⟨hfin, by simp [hst], by simp [hst]⟩, rfl, Or.inl ⟨b, rfl, ?_⟩⟩
            have hz0 : f.zeros = 0 := by omega
            simp [den, hz0, hb]
          · -- first zero of a candidate run: transition and continue the loop
            rw [if_neg hb0]
            simp only [not_not] at hb0
            subst hb0
            have hlt := hfMeasure_read_zero f 0 rest hst hb
            have hwf1 : WFhf ⟨⟨rest, f.source.fin⟩, 1, f.threshold,
                if 1 = f.threshold then .found else .accumulate⟩ := by
              refine ⟨hfin, fun hs => ?_, fun hs => ?_⟩
              · simp at hs
                split at hs <;> simp_all
              · simp
            refine HFStep_congr _ _ _ ?_ ?_ (ih (hfMeasure f - 1) (by omega) _ (by omega) hwf1)
            · have hz0 : f.zeros = 0 := by omega
              simp [den, hz0, hb, List.replicate_succ]
            · rfl
    | accumulate =>
      cases hb : f.source.bytes with
      | nil =>
        simp only
        rw [if_pos hfin]
        have hlt := hfMeasure_acc_eof f hst hb
        have hwf1 : WFhf { f with state := .eofS } := ⟨hfin, fun _ => hb, by simp⟩
        refine HFStep_congr _ _ _ ?_ ?_ (ih (hfMeasure f - 1) (by omega) _ (by omega) hwf1)
        · simp [den]
        · rfl
      | cons b rest =>
        simp only
        by_cases hb0 : b = 0
        · rw [if_pos hb0]
          subst hb0
          have hlt := hfMeasure_acc_zero f rest hst hb
          have hwf1 : WFhf ⟨⟨rest, f.source.fin⟩, f.zeros + 1, f.threshold,
              if f.zeros + 1 = f.threshold then .found else .accumulate⟩ := by
            refine ⟨hfin, fun hs => ?_, fun hs => ?_⟩
            · simp at hs
              split at hs <;> simp_all
            · simp
          refine HFStep_congr _ _ _ ?_ ?_ (ih (hfMeasure f - 1) (by omega) _ (by omega) hwf1)
          · simp [den, hb, List.replicate_succ']
          · rfl
        · rw [if_neg hb0]
          have hlt := hfMeasure_acc_nonzero f b rest hst hb
          have hwf1 : WFhf { f with state := .read } := ⟨hfin, by simp, by simp⟩
          refine HFStep_congr _ _ _ ?_ ?_ (ih (hfMeasure f - 1) (by omega) _ (by omega) hwf1)
          · simp [den]
          · rfl
    | found =>
      have hz1 : 1 ≤ f.zeros := hfound hst
      cases hb : f.source.bytes with
      | nil =>
        -- flush the hole at end of stream
        simp only
        rw [if_pos hfin]
        refine ⟨⟨hfin, fun _ => hb, by simp⟩, rfl, Or.inr (Or.inl ⟨f.zeros, hz1, rfl, ?_⟩)⟩
        simp [den, hb]
      | cons b rest =>
        simp only
        by_cases hb0 : b ≠ 0
        · -- flush the hole before a nonzero byte (pushed back)
          rw [if_pos hb0]
          refine ⟨⟨hfin, by simp, by simp⟩, rfl, Or.inr (Or.inl ⟨f.zeros, hz1, rfl, ?_⟩)⟩
          simp [den]
        · rw [if_neg hb0]
          simp only [not_not] at hb0
          subst hb0
          have hlt := hfMeasure_found_zero f rest hst hb
          have hwf1 : WFhf ⟨⟨rest, f.source.fin⟩, f.zeros + 1, f.threshold, .found⟩ :=
            ⟨hfin, by simp, by simp⟩
          refine HFStep_congr _ _ _ ?_ ?_ (ih (hfMeasure f - 1) (by omega) _ (by omega) hwf1)
          · simp [den, hb, List.replicate_succ']
          · rfl
    | eofS =>
      simp only
      have hb : f.source.bytes = [] := heofS hst
      by_cases hz : 0 < f.zeros
      · obtain ⟨z, hz1⟩ : ∃ z, f.zeros = z + 1 := ⟨f.zeros - 1, by omega⟩
        rw [if_pos hz]
        refine ⟨⟨hfin, fun _ => hb, by simp [hst]⟩, rfl, Or.inl ⟨0, rfl, ?_⟩⟩
        simp [den, hz1, List.replicate_succ]
      · rw [if_neg hz]
        refine ⟨⟨hfin, heofS, hfound⟩, rfl, Or.inr (Or.inr ⟨rfl, ?_, ?_⟩)⟩ <;>
          · have hz0 : f.zeros = 0 := by omega
            simp [den, hz0, hb]

/-- Iterate `readByte` `n` times, collecting the emitted events
`(holeLength, byte, error)` and the final finder state. -/
def hfEvents : Nat → HolesFinder → List (Nat × Nat × Option IOErr) × HolesFinder
  | 0, f => ([], f)
  | n + 1, f =>
    let r := hfReadByte f
    let rs := hfEvents n r.2
    (r.1 :: rs.1, rs.2)

theorem hfEvents_succ (n : Nat) (f : HolesFinder) :
    hfEvents (n + 1) f =
      ((hfReadByte f).1 :: (hfEvents n (hfReadByte f).2).1,
        (hfEvents n (hfReadByte f).2).2) := rfl

/-- The head of the list (if any) is a nonzero byte. -/
def headNonzero : List Nat → Prop
  | [] => True
  | b :: _ => b ≠ 0
/-- Step lemmas: one per branch of the `readByte` loop body. -/
theorem hfStep_read_pending (f : HolesFinder) (hst : f.state = .read) (hz : 0 < f.zeros) :
    hfReadByte f = ((0, 0, none), { f with zeros := f.zeros - 1 }) := by
  rw [hfReadByte_eq, hst]
  simp [hz]

theorem hfStep_read_srcEnd (f : HolesFinder) (hst : f.state = .read) (hz : f.zeros = 0)
    (hb : f.source.bytes = []) :
    hfReadByte f = ((0, 0, some f.source.fin), f) := by
  rw [hfReadByte_eq, hst]
  simp [hz, hb]

theorem hfStep_read_lit (f : HolesFinder) (b : Nat) (rest : List Nat)
    (hst : f.state = .read) (hz : f.zeros = 0) (hb : f.source.bytes = b :: rest)
    (hb0 : b ≠ 0) :
    hfReadByte f = ((0, b, none), { f with source := { f.source with bytes := rest } }) := by
  rw [hfReadByte_eq, hst]
  simp [hz, hb, hb0]

theorem hfStep_read_zero (f : HolesFinder) (rest : List Nat)
    (hst : f.state = .read) (hz : f.zeros = 0) (hb : f.source.bytes = 0 :: rest) :
    hfReadByte f = hfReadByte ⟨⟨rest, f.source.fin⟩, 1, f.threshold,
      if 1 = f.threshold then .found else .accumulate⟩ := by
  rw [hfReadByte_eq, hst]
  simp [hz, hb]

theorem hfStep_acc_srcEnd (f : HolesFinder) (hst : f.state = .accumulate)
    (hb : f.source.bytes = []) (hfin : f.source.fin = .eof) :
    hfReadByte f = hfReadByte { f with state := .eofS } := by
  rw [hfReadByte_eq, hst]
  simp [hb, hfin]

theorem hfStep_acc_srcErr (f : HolesFinder) (hst : f.state = .accumulate)
    (hb : f.source.bytes = []) (hfin : f.source.fin ≠ .eof) :
    hfReadByte f = ((0, 0, some f.source.fin), f) := by
  rw [hfReadByte_eq, hst]
  simp [hb, hfin]

theorem hfStep_acc_zero (f : HolesFinder) (rest : List Nat)
    (hst : f.state = .accumulate) (hb : f.source.bytes = 0 :: rest) :
    hfReadByte f = hfReadByte ⟨⟨rest, f.source.fin⟩, f.zeros + 1, f.threshold,
      if f.zeros + 1 = f.threshold then .found else .accumulate⟩ := by
  rw [hfReadByte_eq, hst]
  simp [hb]

theorem hfStep_acc_nonzero (f : HolesFinder) (b : Nat) (rest : List Nat)
    (hst : f.state = .accumulate) (hb : f.source.bytes = b :: rest) (hb0 : b ≠ 0) :
    hfReadByte f = hfReadByte { f with state := .read } := by
  rw [hfReadByte_eq, hst]
  simp [hb, hb0]

theorem hfStep_found_srcEnd (f : HolesFinder) (hst : f.state = .found)
    (hb : f.source.bytes = []) (hfin : f.source.fin = .eof) :
    hfReadByte f = ((f.zeros, 0, none), { f with zeros := 0, state := .eofS }) := by
  rw [hfReadByte_eq, hst]
  simp [hb, hfin]

theorem hfStep_found_nonzero (f : HolesFinder) (b : Nat) (rest : List Nat)
    (hst : f.state = .found) (hb : f.source.bytes = b :: rest) (hb0 : b ≠ 0) :
    hfReadByte f = ((f.zeros, 0, none), { f with zeros := 0, state := .read }) := by
  rw [hfReadByte_eq, hst]
  simp [hb, hb0]

theorem hfStep_found_zero (f : HolesFinder) (rest : List Nat)
    (hst : f.state = .found) (hb : f.source.bytes = 0 :: rest) :
    hfReadByte f = hfReadByte ⟨⟨rest, f.source.fin⟩, f.zeros + 1, f.threshold, .found⟩ := by
  rw [hfReadByte_eq, hst]
  simp [hb]

theorem hfStep_eofS_pending (f : HolesFinder) (hst : f.state = .eofS) (hz : 0 < f.zeros) :
    hfReadByte f = ((0, 0, none), { f with zeros := f.zeros - 1 }) := by
  rw [hfReadByte_eq, hst]
  simp [hz]

theorem hfStep_eofS_done (f : HolesFinder) (hst : f.state = .eofS) (hz : f.zeros = 0) :
    hfReadByte f = ((0, 0, some .eof), f) := by
  rw [hfReadByte_eq, hst]
  simp [hz]

/-- In state `found` over `k` more zeros followed by a nonzero byte or the
end of the stream, `readByte` silently consumes the zeros and emits the
accumulated run as a single hole event. -/
theorem hfReadByte_found_run (thr : Nat) : ∀ (k z : Nat) (rest : List Nat),
    headNonzero rest →
    hfReadByte ⟨⟨List.replicate k 0 ++ rest, .eof⟩, z, thr, .found⟩ =
      ((z + k, 0, none),
        ⟨⟨rest, .eof⟩, 0, thr, if rest.isEmpty then .eofS else .read⟩) := by
  intro k
  induction k with
  | zero =>
    intro z rest hnz
    cases rest with
    | nil =>
      rw [hfStep_found_srcEnd _ rfl (by simp) rfl]
      simp
    | cons c cs =>
      have hc : c ≠ 0 := hnz
      rw [hfStep_found_nonzero _ c cs rfl (by simp) hc]
      simp
  | succ k ih =>
    intro z rest hnz
    rw [show (List.replicate (k + 1) 0 ++ rest) = 0 :: (List.replicate k 0 ++ rest) by
      simp [List.replicate_succ]]
    rw [hfStep_found_zero _ (List.replicate k 0 ++ rest) rfl rfl]
    rw [ih (z + 1) rest hnz]
    rw [show z + 1 + k = z + (k + 1) from by omega]

/-- In state `accumulate` (with `1 ≤ z < threshold` zeros already seen)
over `k` more zeros followed by a nonzero byte or the end of the stream:
if the run stays below the threshold every zero is replayed literally
(the first replayed zero is returned by this call), otherwise the whole
run is emitted as one hole event. -/
theorem hfReadByte_acc_run (thr : Nat) : ∀ (k z : Nat) (rest : List Nat),
    headNonzero rest → 1 ≤ z → z < thr →
    hfReadByte ⟨⟨List.replicate k 0 ++ rest, .eof⟩, z, thr, .accumulate⟩ =
      (if z + k < thr then
        ((0, 0, none),
          ⟨⟨rest, .eof⟩, z + k - 1, thr, if rest.isEmpty then .eofS else .read⟩)
      else
        ((z + k, 0, none),
          ⟨⟨rest, .eof⟩, 0, thr, if rest.isEmpty then .eofS else .read⟩)) := by
  intro k
  induction k with
  | zero =>
    intro z rest hnz hz1 hzthr
    rw [if_pos (by omega)]
    cases rest with
    | nil =>
      rw [hfStep_acc_srcEnd _ rfl (by simp) rfl]
      rw [hfStep_eofS_pending _ rfl (by simpa using hz1)]
      simp
    | cons c cs =>
      have hc : c ≠ 0 := hnz
      rw [hfStep_acc_nonzero _ c cs rfl (by simp) hc]
      rw [hfStep_read_pending _ rfl (by simpa using hz1)]
      simp
  | succ k ih =>
    intro z rest hnz hz1 hzthr
    rw [show (List.replicate (k + 1) 0 ++ rest) = 0 :: (List.replicate k 0 ++ rest) by
      simp [List.replicate_succ]]
    rw [hfStep_acc_zero _ (List.replicate k 0 ++ rest) rfl rfl]
    by_cases hth : z + 1 = thr
    · rw [show (if z + 1 = thr then HFState.found else .accumulate) = .found by simp [hth]]
      rw [hfReadByte_found_run thr k (z + 1) rest hnz]
      rw [if_neg (show ¬(z + (k + 1) < thr) by omega)]
      rw [show z + 1 + k = z + (k + 1) from by omega]
    · rw [show (if z + 1 = thr then HFState.found else .accumulate) = .accumulate by
        simp [hth]]
      rw [ih (z + 1) rest hnz (by omega) (by omega)]
      by_cases hlt : z + (k + 1) < thr
      · rw [if_pos (show z + 1 + k < thr by omega), if_pos hlt]
        rw [show z + 1 + k = z + (k + 1) from by omega]
      · rw [if_neg (show ¬(z + 1 + k < thr) by omega), if_neg hlt]
        rw [show z + 1 + k = z + (k + 1) from by omega]



/-- Resolved zeros pending in state `read` (or `eofS`) are replayed one
per call, leaving the rest of the state untouched. -/
theorem hfEvents_replay (S : HFState) (hS : S = .read ∨ S = .eofS) :
    ∀ (m : Nat) (src : ByteSrc) (thr : Nat),
    hfEvents m ⟨src, m, thr, S⟩ =
      (List.replicate m (0, 0, none), ⟨src, 0, thr, S⟩) := by
  intro m
  induction m with
  | zero => intro src thr; rfl
  | succ m ih =>
    intro src thr
    rw [hfEvents_succ]
    have hr : hfReadByte ⟨src, m + 1, thr, S⟩ =
        ((0, 0, none), ⟨src, m, thr, S⟩) := by
      rcases hS with h | h <;>
        · subst h
          rw [hfReadByte_eq]
          simp only
          rw [if_pos (by omega : 0 < m + 1)]
          simp
    rw [hr, ih src thr]
    simp [List.replicate_succ]

/-- A fresh holesFinder over a cleanly terminated byte stream, as built by
`writeZstdChunkedStream` (state `Read`, no pending zeros). -/
def initHF (thr : Nat) (p : List Nat) : HolesFinder := ⟨⟨p, .eof⟩, 0, thr, .read⟩

/-- C5.  For an input stream starting with a run of exactly `L` zero bytes
(delimited by a nonzero byte or the end of the stream): if `L ≥ threshold`
the very first `readByte` call emits a single hole event of run length
exactly `L` (consuming the whole run); if `L < threshold` the first `L`
calls each return a literal zero byte and no hole event is emitted for the
run. -/
theorem c5_hole_detector_run_length (thr L : Nat) (rest : List Nat)
    (hthr : 1 ≤ thr) (hnz : headNonzero rest) :
    (thr ≤ L →
      hfEvents 1 (initHF thr (List.replicate L 0 ++ rest)) =
        ([(L, 0, none)],
          ⟨⟨rest, .eof⟩, 0, thr, if rest.isEmpty then .eofS else .read⟩)) ∧
    (L < thr →
      (hfEvents L (initHF thr (List.replicate L 0 ++ rest))).1 =
        List.replicate L (0, 0, none)) := by
  constructor
  · intro hL
    obtain ⟨L1, rfl⟩ : ∃ L1, L = L1 + 1 := ⟨L - 1, by omega⟩
    have h0 : hfReadByte (initHF thr (List.replicate (L1 + 1) 0 ++ rest)) =
        ((L1 + 1, 0, none),
          ⟨⟨rest, .eof⟩, 0, thr, if rest.isEmpty then .eofS else .read⟩) := by
      rw [show (List.replicate (L1 + 1) 0 ++ rest) = 0 :: (List.replicate L1 0 ++ rest) by
        simp [List.replicate_succ]]
      rw [hfStep_read_zero _ (List.replicate L1 0 ++ rest) rfl rfl rfl]
      simp only [initHF]
      by_cases h1 : 1 = thr
      · rw [show (if 1 = thr then HFState.found else .accumulate) = .found by simp [h1]]
        rw [hfReadByte_found_run thr L1 1 rest hnz]
        rw [show 1 + L1 = L1 + 1 from by omega]
      · rw [show (if 1 = thr then HFState.found else .accumulate) = .accumulate by simp [h1]]
        rw [hfReadByte_acc_run thr L1 1 rest hnz le_rfl (by omega)]
        rw [if_neg (show ¬(1 + L1 < thr) by omega)]
        rw [show 1 + L1 = L1 + 1 from by omega]
    rw [hfEvents_succ, h0]
    rfl
  · intro hL
    cases L with
    | zero => rfl
    | succ L1 =>
      have hthr2 : 2 ≤ thr := by omega
      have h0 : hfReadByte (initHF thr (List.replicate (L1 + 1) 0 ++ rest)) =
          ((0, 0, none),
            ⟨⟨rest, .eof⟩, L1, thr, if rest.isEmpty then .eofS else .read⟩) := by
        rw [show (List.replicate (L1 + 1) 0 ++ rest) = 0 :: (List.replicate L1 0 ++ rest) by
          simp [List.replicate_succ]]
        rw [hfStep_read_zero _ (List.replicate L1 0 ++ rest) rfl rfl rfl]
        simp only [initHF]
        rw [show (if 1 = thr then HFState.found else .accumulate) = .accumulate by
          simp; omega]
        rw [hfReadByte_acc_run thr L1 1 rest hnz le_rfl (by omega)]
        rw [if_pos (show 1 + L1 < thr by omega)]
        rw [show 1 + L1 - 1 = L1 from by omega]
      rw [hfEvents_succ, h0]
      have hrep := hfEvents_replay (if rest.isEmpty then HFState.eofS else .read)
        (by split <;> simp) L1 ⟨rest, .eof⟩ thr
      simp only [hrep]
      simp [List.replicate_succ]

/-- Witness for C5 at the source's threshold 1024, checking both
boundaries `L = 1024` and `L = 1023`. -/
theorem c5_hole_detector_run_length_witness :
    (hfEvents 1 (initHF 1024 (List.replicate 1024 0 ++ [7]))).1 = [(1024, 0, none)] ∧
    (hfEvents 1023 (initHF 1024 (List.replicate 1023 0 ++ [7]))).1 =
      List.replicate 1023 (0, 0, none) := by
  constructor
  · rw [(c5_hole_detector_run_length 1024 1024 [7] (by decide)
      (by simp [headNonzero])).1 (by decide)]
  · exact (c5_hole_detector_run_length 1024 1023 [7] (by decide)
      (by simp [headNonzero])).2 (by decide)

/-- Modelled from the spec: the rolling checksum (`RollSum`, defined in
`rollsum.go`, which is not under src/) is described by the spec only as
"an incrementally updatable hash over a sliding window, used to detect
statistically well-distributed split points", whose split predicate
`OnSplitWithBits` tests "a window-based rolling hash test against a fixed
16-bit mask".  We model it as a 64-byte sliding window whose digest is a
deterministic fold of the window contents, with the split predicate
comparing the digest's low `bits` bits against the all-ones mask.  All
theorems below treat the split predicate as an opaque deterministic
function of the bytes rolled so far. -/
def rollWindowSize : Nat := 64

structure RollSum where
  window : List Nat
deriving DecidableEq, Repr

def newRollSum : RollSum := ⟨[]⟩

def RollSum.roll (rs : RollSum) (b : Nat) : RollSum :=
  let w := rs.window ++ [b]
  ⟨if rollWindowSize < w.length then w.drop (w.length - rollWindowSize) else w⟩

def RollSum.digest (rs : RollSum) : Nat :=
  rs.window.foldl (fun acc b => acc * 31 + (b + 1)) 0

/-- `RollsumBits = 16` in the source. -/
def RollsumBits : Nat := 16

def RollSum.onSplitWithBits (rs : RollSum) (bits : Nat) : Bool :=
  rs.digest % 2 ^ bits == 2 ^ bits - 1

/-- Roll `k` zero bytes into the checksum
(`for j := int64(0); j < holeLen; j++ { rc.rollsum.Roll(0) }`). -/
def RollSum.rollZeros (rs : RollSum) (k : Nat) : RollSum :=
  (List.replicate k 0).foldl RollSum.roll rs

/-- The `rollingChecksumReader` struct.  `writtenOut` is the total number
of bytes delivered from the stream, `isLastChunkZeros` records whether the
most recently delivered run was a hole. -/
structure rollingChecksumReader where
  reader : HolesFinder
  closed : Bool
  rollsum : RollSum
  pendingHole : Nat
  writtenOut : Nat
  isLastChunkZeros : Bool
deriving DecidableEq, Repr

/-- The `for i := 0; i < len(b); i++` loop of `rollingChecksumReader.Read`:
`cap` is the remaining buffer capacity and `acc` the bytes already written
into the caller's buffer during this call (so the loop index `i` is
`acc.length`).  Returns `((mustSplit, count, error), buffer contents,
updated reader)`. -/
def rcReadLoop : Nat → List Nat → rollingChecksumReader →
    (Bool × Int × Option IOErr) × List Nat × rollingChecksumReader
  | 0, acc, rc => ((false, (acc.length : Int), none), acc, rc)
  | cap + 1, acc, rc =>
    match hfReadByte rc.reader with
    | ((_, _, some e), f2) =>
      if e = .eof then
        -- end of stream: report the bytes delivered so far, if any
        if acc.length = 0 then
          ((false, 0, some .eof), acc, { rc with reader := f2, closed := true })
        else
          ((false, (acc.length : Int), none), acc, { rc with reader := f2, closed := true })
      else
        -- report any other error type
        ((false, -1, some e), acc, { rc with reader := f2 })
    | ((holeLen, nb, none), f2) =>
      if 0 < holeLen then
        -- a hole immediately terminates the current chunk
        ((true, (acc.length : Int), none), acc,
          { rc with reader := f2,
                    rollsum := rc.rollsum.rollZeros holeLen,
                    pendingHole := holeLen })
      else
        if (rc.rollsum.roll nb).onSplitWithBits RollsumBits then
          ((true, ((acc.length : Int) + 1), none), acc ++ [nb],
            { rc with reader := f2, writtenOut := rc.writtenOut + 1,
                      rollsum := rc.rollsum.roll nb })
        else
          rcReadLoop cap (acc ++ [nb])
            { rc with reader := f2, writtenOut := rc.writtenOut + 1,
                      rollsum := rc.rollsum.roll nb }

/-- `rollingChecksumReader.Read` with a caller buffer of length `n`. -/
def rcRead (rc : rollingChecksumReader) (n : Nat) :
    (Bool × Int × Option IOErr) × List Nat × rollingChecksumReader :=
  let rc0 := { rc with isLastChunkZeros := false }
  if 0 < rc0.pendingHole then
    let toCopy := min rc0.pendingHole n
    let rc1 := { rc0 with pendingHole := rc0.pendingHole - toCopy,
                          writtenOut := rc0.writtenOut + toCopy,
                          isLastChunkZeros := true }
    -- if there are no other zeros left, terminate the chunk
    ((rc1.pendingHole == 0, (toCopy : Int), none), List.replicate toCopy 0, rc1)
  else if rc0.closed then
    ((false, 0, some .eof), [], rc0)
  else
    rcReadLoop n [] rc0

/-- C10.  Once the reader has observed end-of-stream (`closed` set), every
`Read` with no pending hole returns `(false, 0, io.EOF)` without touching
the underlying hole finder; the `closed` flag stays set, so end-of-stream
is a sticky terminal state. -/
theorem c10_reader_sticky_eof (rc : rollingChecksumReader) (n : Nat)
    (hc : rc.closed = true) (hp : rc.pendingHole = 0) :
    rcRead rc n = ((false, 0, some .eof), [], { rc with isLastChunkZeros := false }) ∧
    (rcRead rc n).2.2.reader = rc.reader ∧
    (rcRead rc n).2.2.closed = true := by
  have h : rcRead rc n = ((false, 0, some .eof), [], { rc with isLastChunkZeros := false }) := by
    rw [rcRead]
    simp [hp, hc]
  exact ⟨h, by rw [h], by rw [h]; exact hc⟩

/-- Witness for C10 at a concrete closed reader state. -/
theorem c10_reader_sticky_eof_witness :
    rcRead ⟨initHF 1024 [], true, newRollSum, 0, 5, false⟩ 4096 =
      ((false, 0, some .eof), [], ⟨initHF 1024 [], true, newRollSum, 0, 5, false⟩) ∧
    (rcRead ⟨initHF 1024 [], true, newRollSum, 0, 5, false⟩ 4096).2.2.reader =
      initHF 1024 [] := by
  have h := c10_reader_sticky_eof ⟨initHF 1024 [], true, newRollSum, 0, 5, false⟩ 4096 rfl rfl
  exact ⟨h.1, h.2.1⟩

/-- Denotation of a reader state: pending hole zeros, then the hole
finder's remaining stream. -/
def denR (rc : rollingChecksumReader) : List Nat :=
  List.replicate rc.pendingHole 0 ++ den rc.reader

/-- Reader invariant: the hole finder is well-formed over an EOF-terminated
source, and once `closed` is set the finder is exhausted. -/
def WFrc (rc : rollingChecksumReader) : Prop :=
  WFhf rc.reader ∧ (rc.closed = true → den rc.reader = [])

/-- Termination measure for the orchestrator's read loop: strictly
decreases across every successful (non-EOF) `Read` call. -/
def Mrc (rc : rollingChecksumReader) : Nat :=
  2 * ((den rc.reader).length + rc.pendingHole + (if rc.closed = true then 0 else 1)) +
    (if 0 < rc.pendingHole then 0 else 1)

theorem rcLoopStep_err (cap : Nat) (acc : List Nat) (rc : rollingChecksumReader)
    (h nb : Nat) (e : IOErr) (f2 : HolesFinder)
    (hr : hfReadByte rc.reader = ((h, nb, some e), f2)) (hne : e ≠ .eof) :
    rcReadLoop (cap + 1) acc rc = ((false, -1, some e), acc, { rc with reader := f2 }) := by
  conv_lhs => rw [rcReadLoop, hr]
  simp [hne]

theorem rcLoopStep_eofFirst (cap : Nat) (acc : List Nat) (rc : rollingChecksumReader)
    (h nb : Nat) (f2 : HolesFinder)
    (hr : hfReadByte rc.reader = ((h, nb, some .eof), f2)) (hacc : acc.length = 0) :
    rcReadLoop (cap + 1) acc rc =
      ((false, 0, some .eof), acc, { rc with reader := f2, closed := true }) := by
  conv_lhs => rw [rcReadLoop, hr]
  simp [hacc]

theorem rcLoopStep_eofLater (cap : Nat) (acc : List Nat) (rc : rollingChecksumReader)
    (h nb : Nat) (f2 : HolesFinder)
    (hr : hfReadByte rc.reader = ((h, nb, some .eof), f2)) (hacc : acc.length ≠ 0) :
    rcReadLoop (cap + 1) acc rc =
      ((false, (acc.length : Int), none), acc, { rc with reader := f2, closed := true }) := by
  conv_lhs => rw [rcReadLoop, hr]
  simp [hacc]

theorem rcLoopStep_hole (cap : Nat) (acc : List Nat) (rc : rollingChecksumReader)
    (h nb : Nat) (f2 : HolesFinder)
    (hr : hfReadByte rc.reader = ((h, nb, none), f2)) (hpos : 0 < h) :
    rcReadLoop (cap + 1) acc rc =
      ((true, (acc.length : Int), none), acc,
        { rc with reader := f2, rollsum := rc.rollsum.rollZeros h,
                  pendingHole := h }) := by
  conv_lhs => rw [rcReadLoop, hr]
  simp [hpos]

theorem rcLoopStep_lit (cap : Nat) (acc : List Nat) (rc : rollingChecksumReader)
    (b : Nat) (f2 : HolesFinder)
    (hr : hfReadByte rc.reader = ((0, b, none), f2)) :
    rcReadLoop (cap + 1) acc rc =
      if (rc.rollsum.roll b).onSplitWithBits RollsumBits then
        ((true, ((acc.length : Int) + 1), none), acc ++ [b],
          { rc with reader := f2, writtenOut := rc.writtenOut + 1,
                    rollsum := rc.rollsum.roll b })
      else
        rcReadLoop cap (acc ++ [b])
          { rc with reader := f2, writtenOut := rc.writtenOut + 1,
                    rollsum := rc.rollsum.roll b } := by
  conv_lhs => rw [rcReadLoop, hr]
  simp

theorem rcReadLoop_spec : ∀ (cap : Nat) (acc : List Nat) (rc : rollingChecksumReader),
    WFhf rc.reader → rc.pendingHole = 0 → rc.closed = false →
    WFrc (rcReadLoop cap acc rc).2.2 ∧
    (rcReadLoop cap acc rc).2.2.reader.threshold = rc.reader.threshold ∧
    (rcReadLoop cap acc rc).2.2.isLastChunkZeros = rc.isLastChunkZeros ∧
    ∃ d, (rcReadLoop cap acc rc).2.1 = acc ++ d ∧
      den rc.reader =
        d ++ List.replicate (rcReadLoop cap acc rc).2.2.pendingHole 0 ++
          den (rcReadLoop cap acc rc).2.2.reader ∧
      (rcReadLoop cap acc rc).2.2.writtenOut = rc.writtenOut + d.length ∧
      ((rcReadLoop cap acc rc).1.2.2 = none →
        (rcReadLoop cap acc rc).1.2.1 = ((acc ++ d).length : Int) ∧
        (1 ≤ d.length ∨ 0 < (rcReadLoop cap acc rc).2.2.pendingHole ∨
          (rcReadLoop cap acc rc).2.2.closed = true ∨ cap = 0)) ∧
      (∀ e, (rcReadLoop cap acc rc).1.2.2 = some e →
        e = .eof ∧ d = [] ∧ acc = [] ∧ (rcReadLoop cap acc rc).1.2.1 = 0 ∧
        den rc.reader = [] ∧ (rcReadLoop cap acc rc).2.2.closed = true) := by
  intro cap
  induction cap with
  | zero =>
    intro acc rc hwf hph hcl
    have h0 : rcReadLoop 0 acc rc = ((false, (acc.length : Int), none), acc, rc) := rfl
    rw [h0]
    refine ⟨⟨hwf, by simp [hcl]⟩, rfl, rfl, [], by simp, by simp [hph], by simp, ?_, ?_⟩
    · intro _
      exact ⟨by simp, Or.inr (Or.inr (Or.inr rfl))⟩
    · intro e he
      simp at he
  | succ cap ih =>
    intro acc rc hwf hph hcl
    obtain ⟨hwf2, hthr2, hcases⟩ := hfReadByte_spec rc.reader hwf
    rcases hcases with ⟨b, hr1, hden⟩ | ⟨h, hpos, hr1, hden⟩ | ⟨hr1, hden0, hden2⟩
    all_goals
      have hr : hfReadByte rc.reader =
          ((hfReadByte rc.reader).1, (hfReadByte rc.reader).2) := rfl
    · -- literal byte
      rw [hr1] at hr
      rw [rcLoopStep_lit cap acc rc b (hfReadByte rc.reader).2 hr]
      by_cases hsp : (rc.rollsum.roll b).onSplitWithBits RollsumBits
      · rw [if_pos hsp]
        refine ⟨⟨hwf2, by simp [hcl]⟩, hthr2, rfl, [b], by simp, by simpa [hph] using hden,
          by simp, ?_, ?_⟩
        · intro _
          refine ⟨?_, Or.inl (by simp)⟩
          simp
        · intro e he
          simp at he
      · rw [if_neg hsp]
        have hres := ih (acc ++ [b])
          { rc with
              reader := (hfReadByte rc.reader).2
              writtenOut := rc.writtenOut + 1
              rollsum := rc.rollsum.roll b }
          hwf2 hph hcl
        obtain ⟨hwfr, hthrr, hlcz, d2, hout, hdend, hwo, hnone, hsome⟩ := hres
        refine ⟨hwfr, hthrr.trans hthr2, hlcz, b :: d2, by simpa using hout,
          ?_, by rw [hwo, List.length_cons]; dsimp only; omega, ?_, ?_⟩
        · rw [hden]
          simpa using hdend
        · intro hne
          obtain ⟨hcnt, _⟩ := hnone hne
          refine ⟨by simpa using hcnt, Or.inl (by simp)⟩
        · intro e he
          obtain ⟨_, _, habs, _⟩ := hsome e he
          simp at habs
    · -- hole: terminate the current chunk
      rw [hr1] at hr
      rw [rcLoopStep_hole cap acc rc h 0 (hfReadByte rc.reader).2 hr hpos]
      refine ⟨⟨hwf2, by simp [hcl]⟩, hthr2, rfl, [], by simp, by simpa [hph] using hden,
        by simp, ?_, ?_⟩
      · intro _
        exact ⟨by simp, Or.inr (Or.inl hpos)⟩
      · intro e he
        simp at he
    · -- end of stream
      rw [hr1] at hr
      by_cases hacc : acc.length = 0
      · rw [rcLoopStep_eofFirst cap acc rc 0 0 (hfReadByte rc.reader).2 hr hacc]
        have hacc2 : acc = [] := List.length_eq_zero.mp hacc
        refine ⟨⟨hwf2, fun _ => hden2⟩, hthr2, rfl, [], by simp, ?_, by simp, ?_, ?_⟩
        · simp [hden0, hden2, hph]
        · intro hne
          simp at hne
        · intro e he
          simp at he
          exact ⟨he.symm, rfl, hacc2, rfl, hden0, rfl⟩
      · rw [rcLoopStep_eofLater cap acc rc 0 0 (hfReadByte rc.reader).2 hr hacc]
        refine ⟨⟨hwf2, fun _ => hden2⟩, hthr2, rfl, [], by simp, ?_, by simp, ?_, ?_⟩
        · simp [hden0, hden2, hph]
        · intro _
          exact ⟨by simp, Or.inr (Or.inr (Or.inl rfl))⟩
        · intro e he
          simp at he


/-- The main specification of a single `Read` call with a nonempty buffer,
over a well-formed reader: it delivers the next bytes of the stream
denotation, advances `WrittenOut` by exactly that count, reports the
count (when no error), strictly decreases the termination measure, and an
error is always a clean `io.EOF` with nothing delivered. -/
theorem rcRead_spec (rc : rollingChecksumReader) (n : Nat) (hn : 0 < n) (hwf : WFrc rc) :
    WFrc (rcRead rc n).2.2 ∧
    (rcRead rc n).2.2.reader.threshold = rc.reader.threshold ∧
    denR rc = (rcRead rc n).2.1 ++ denR (rcRead rc n).2.2 ∧
    (rcRead rc n).2.2.writtenOut = rc.writtenOut + (rcRead rc n).2.1.length ∧
    ((rcRead rc n).1.2.2 = none →
      (rcRead rc n).1.2.1 = ((rcRead rc n).2.1.length : Int) ∧
      Mrc (rcRead rc n).2.2 < Mrc rc) ∧
    (∀ e, (rcRead rc n).1.2.2 = some e →
      e = .eof ∧ (rcRead rc n).2.1 = [] ∧ (rcRead rc n).1.2.1 = 0 ∧ denR rc = [] ∧
      (rcRead rc n).2.2.closed = true ∧ (rcRead rc n).2.2.writtenOut = rc.writtenOut) := by
  obtain ⟨hwfh, hcld⟩ := hwf
  by_cases hph : 0 < rc.pendingHole
  · -- serving a pending hole
    have hstep : rcRead rc n =
        ((rc.pendingHole - min rc.pendingHole n == 0, ((min rc.pendingHole n : Nat) : Int), none),
          List.replicate (min rc.pendingHole n) 0,
          { rc with pendingHole := rc.pendingHole - min rc.pendingHole n
                    writtenOut := rc.writtenOut + min rc.pendingHole n
                    isLastChunkZeros := true }) := by
      rw [rcRead]
      simp [hph]
    rw [hstep]
    have hmin : min rc.pendingHole n ≤ rc.pendingHole := Nat.min_le_left _ _
    have hmin1 : 1 ≤ min rc.pendingHole n := by omega
    refine ⟨⟨hwfh, hcld⟩, rfl, ?_, by simp, ?_, ?_⟩
    · show denR rc = _
      rw [denR, denR]
      simp only
      rw [← List.append_assoc, ← List.replicate_add]
      rw [show min rc.pendingHole n + (rc.pendingHole - min rc.pendingHole n) = rc.pendingHole
        from by omega]
    · intro _
      refine ⟨by simp, ?_⟩
      simp only [Mrc]
      split_ifs <;> simp_all <;> omega
    · intro e he
      simp at he
  · have hph0 : rc.pendingHole = 0 := by omega
    by_cases hcl : rc.closed = true
    · -- sticky EOF
      have hstep : rcRead rc n =
          ((false, 0, some .eof), [], { rc with isLastChunkZeros := false }) := by
        rw [rcRead]
        simp [hph0, hcl]
      rw [hstep]
      have hden0 : den rc.reader = [] := hcld hcl
      refine ⟨⟨hwfh, fun _ => hden0⟩, rfl, by simp [denR, hph0], by simp, ?_, ?_⟩
      · intro hne
        simp at hne
      · intro e he
        simp at he
        exact ⟨he.symm, rfl, rfl, by simp [denR, hph0, hden0], hcl, rfl⟩
    · -- drive the holesFinder loop
      have hclf : rc.closed = false := by
        revert hcl
        cases rc.closed <;> simp
      have hstep : rcRead rc n =
          rcReadLoop n [] ⟨rc.reader, false, rc.rollsum, 0, rc.writtenOut, false⟩ := by
        rw [rcRead]
        simp [hph0, hclf]
      rw [hstep]
      have hres := rcReadLoop_spec n [] ⟨rc.reader, false, rc.rollsum, 0, rc.writtenOut, false⟩
        hwfh rfl rfl
      obtain ⟨hwfr, hthrr, _, d, hout, hdend, hwo, hnone, hsome⟩ := hres
      have hdrc : denR rc = den rc.reader := by
        rw [denR, hph0]
        simp
      have hdenR : denR rc =
          d ++ denR (rcReadLoop n [] ⟨rc.reader, false, rc.rollsum, 0, rc.writtenOut, false⟩).2.2 := by
        rw [hdrc, denR]
        simpa using hdend
      refine ⟨hwfr, hthrr, ?_, ?_, ?_, ?_⟩
      · rw [hout]
        simpa using hdenR
      · rw [hwo, hout]
        simp
      · intro hne
        obtain ⟨hcnt, hprog⟩ := hnone hne
        refine ⟨by rw [hcnt, hout], ?_⟩
        have hlen : (den rc.reader).length =
            d.length +
              (rcReadLoop n [] ⟨rc.reader, false, rc.rollsum, 0, rc.writtenOut, false⟩).2.2.pendingHole +
              (den (rcReadLoop n [] ⟨rc.reader, false, rc.rollsum, 0, rc.writtenOut, false⟩).2.2.reader).length := by
          rw [hdend]
          simp
          omega
        rcases hprog with hd | hp | hc | hcap0
        · simp [Mrc, hph0, hclf]
          split_ifs <;> omega
        · simp [Mrc, hph0, hclf]
          split_ifs <;> omega
        · simp [Mrc, hph0, hclf]
          split_ifs with h1 _h2 <;> first | exact absurd hc h1 | omega
        · omega
      · intro e he
        obtain ⟨heof, hd, _, hcnt, hden0, hclos⟩ := hsome e he
        subst hd
        refine ⟨heof, by simpa using hout, hcnt, by rw [denR, hph0]; simp [hden0], hclos, ?_⟩
        rw [hwo]
        simp

/-- `holesThreshold = int64(1 << 10)` in the source. -/
def holesThreshold : Nat := 1024

/-- Modelled from the spec: `internal.ChunkTypeData` / `internal.ChunkTypeZeros`
(the internal package is not under src/); the spec says a chunk's type is
one of `Data` or `Zeros`. -/
inductive CType where
  | data
  | zeros
deriving DecidableEq, Repr

/-- The transient `chunk` record of the orchestrator.  Digest strings are
modelled throughout as the byte lists fed to the digester (digest
computation is an out-of-scope collaborator producing a stable identifier
of exactly those bytes). -/
structure Chunk where
  chunkOffset : Nat
  offset : Nat
  checksum : List Nat
  chunkSize : Nat
  chunkType : CType
deriving DecidableEq, Repr

/-- The archive-entry header fields consumed by the orchestrator (the tar
parser is an out-of-scope collaborator; timestamps and extended attributes
are copied through untouched and no claim concerns them, so they are
omitted). -/
structure TarHeader where
  typeflag : Nat
  name : Nat
  linkname : Nat
  mode : Int
  size : Int
  uid : Int
  gid : Int
  devmajor : Int
  devminor : Int
deriving DecidableEq, Repr

/-- Modelled from the spec: `internal.GetType` maps archive typeflags to
entry type tags and `internal.TypeChunk` tags chunk-continuation records
(the internal package is not under src/).  The tag space is modelled as a
disjoint sum so the chunk tag cannot collide with a header type. -/
inductive EntryType where
  | fromHeader (typeflag : Nat)
  | chunkT
deriving DecidableEq, Repr

/-- `internal.FileMetadata`, restricted to the fields the orchestrator
writes.  `none` for a digest models the empty digest string. -/
structure FileMetadata where
  ftype : EntryType
  name : Nat
  linkname : Nat
  mode : Int
  size : Int
  uid : Int
  gid : Int
  devmajor : Int
  devminor : Int
  digest : Option (List Nat)
  offset : Nat
  endOffset : Nat
  chunkSize : Nat
  chunkOffset : Nat
  chunkDigest : Option (List Nat)
  chunkType : Option CType
deriving DecidableEq, Repr

/-- `buf := make([]byte, 4096)` -/
def bufSize : Nat := 4096

/-- The local state of the per-entry payload loop of
`writeZstdChunkedStream` (lines 255-326), plus the restart counter `k`:
the zstd frame sink is an out-of-scope collaborator, so the value of
`dest.Count` returned by the `k`-th `restartCompression` call is modelled
by an oracle `offs k` (positive in any real run, since the compressed
entry header already reached the counter).  `errVar` is the enclosing
`err` variable that line 277 (`return err`) returns. -/
structure EntryLoop where
  rc : rollingChecksumReader
  startOffset : Nat
  lastOffset : Nat
  lastChunkOffset : Nat
  payloadDigester : List Nat
  chunkDigester : List Nat
  chunks : List Chunk
  k : Nat
  errVar : Option IOErr
deriving DecidableEq, Repr

inductive EntryOutcome where
  | done (st : EntryLoop) (checksum : Option (List Nat))
  | readErr (outerErr : Option IOErr)
deriving DecidableEq, Repr

/-- Lines 279-319 of the loop body: the state updates performed after a
`rcRead` call that did not fail (restart bookkeeping on first data,
digest updates, and the split-record block), producing the state at the
bottom of the iteration.  `r` is the full result of the `Read` call:
`r.1 = (mustSplit, read, errRead)`, `r.2 = (bytes delivered, reader)`. -/
def entryStep (offs : Nat → Nat) (st : EntryLoop)
    (r : (Bool × Int × Option IOErr) × List Nat × rollingChecksumReader) : EntryLoop :=
  let st1 : EntryLoop := { st with rc := r.2.2 }
  let st2 : EntryLoop :=
    if 0 < r.1.2.1 then
      let st15 : EntryLoop :=
        if st1.startOffset = 0 then
          { st1 with startOffset := offs st1.k, lastOffset := offs st1.k,
                     k := st1.k + 1, errVar := none }
        else st1
      { st15 with payloadDigester := st15.payloadDigester ++ r.2.1,
                  chunkDigester := st15.chunkDigester ++ r.2.1 }
    else st1
  if (r.1.1 = true ∨ r.1.2.2 = some IOErr.eof) ∧ 0 < st2.startOffset then
    let chunkSize := st2.rc.writtenOut - st2.lastChunkOffset
    let cks :=
      if 0 < chunkSize then
        st2.chunks ++ [{ chunkOffset := st2.lastChunkOffset,
                         offset := st2.lastOffset,
                         checksum := st2.chunkDigester,
                         chunkSize := chunkSize,
                         chunkType := if st2.rc.isLastChunkZeros then CType.zeros
                                      else CType.data }]
      else st2.chunks
    { st2 with k := st2.k + 1, chunks := cks, lastOffset := offs st2.k,
               lastChunkOffset := st2.rc.writtenOut, chunkDigester := [] }
  else st2

/-- One iteration of the payload loop (lines 274-326). -/
def entryIter (offs : Nat → Nat) (st : EntryLoop) : EntryLoop ⊕ EntryOutcome :=
  let r := rcRead st.rc bufSize
  if r.1.2.2 ≠ none ∧ r.1.2.2 ≠ some IOErr.eof then
    -- line 277: `return err` returns the stale outer err, NOT errRead
    .inr (.readErr st.errVar)
  else
    let st3 := entryStep offs st r
    if r.1.2.2 = some IOErr.eof then
      .inr (.done st3 (if 0 < st3.startOffset then some st3.payloadDigester else none))
    else
      .inl st3

theorem entryIter_none (offs : Nat → Nat) (st : EntryLoop)
    (hnone : (rcRead st.rc bufSize).1.2.2 = none) :
    entryIter offs st = .inl (entryStep offs st (rcRead st.rc bufSize)) := by
  rw [entryIter]
  dsimp only
  rw [if_neg (by simp [hnone]), if_neg (by simp [hnone])]

theorem entryIter_eof (offs : Nat → Nat) (st : EntryLoop)
    (heof : (rcRead st.rc bufSize).1.2.2 = some IOErr.eof) :
    entryIter offs st =
      .inr (.done (entryStep offs st (rcRead st.rc bufSize))
        (if 0 < (entryStep offs st (rcRead st.rc bufSize)).startOffset then
          some (entryStep offs st (rcRead st.rc bufSize)).payloadDigester
        else none)) := by
  rw [entryIter]
  dsimp only
  rw [if_neg (by simp [heof]), if_pos heof]

theorem entryIter_err (offs : Nat → Nat) (st : EntryLoop)
    (herr : (rcRead st.rc bufSize).1.2.2 ≠ none ∧
      (rcRead st.rc bufSize).1.2.2 ≠ some IOErr.eof) :
    entryIter offs st = .inr (.readErr st.errVar) := by
  rw [entryIter]
  dsimp only
  rw [if_pos herr]

/-- The payload loop, fuel-indexed: `none` means the fuel ran out (the
source loop genuinely diverges on a source that keeps failing with a
non-EOF error while the hole finder sits in state `found`; a clean EOF
source always terminates within `entryFuel`). -/
def entryLoop (offs : Nat → Nat) : Nat → EntryLoop → Option EntryOutcome
  | 0, _ => none
  | fuel + 1, st =>
    match entryIter offs st with
    | .inl st2 => entryLoop offs fuel st2
    | .inr out => some out

/-- Lines 263-271: the fresh hole finder and rolling-checksum reader built
for each entry's payload. -/
def initRCReader (p : ByteSrc) : rollingChecksumReader :=
  ⟨⟨p, 0, holesThreshold, .read⟩, false, newRollSum, 0, 0, false⟩

def initEntry (p : ByteSrc) (k : Nat) : EntryLoop :=
  ⟨initRCReader p, 0, 0, 0, [], [], [], k, none⟩

def entryFuel (p : ByteSrc) : Nat := 2 * p.bytes.length + 8

def processEntry (offs : Nat → Nat) (p : ByteSrc) (k : Nat) : Option EntryOutcome :=
  entryLoop offs (entryFuel p) (initEntry p k)

/-- Backfill of per-chunk data onto a metadata record (lines 364-369). -/
def backfill (e : FileMetadata) (c : Chunk) : FileMetadata :=
  { e with chunkSize := c.chunkSize, offset := c.offset,
           chunkDigest := some c.checksum, chunkType := some c.chunkType }

/-- Lines 341-348: the primary record built from the entry header. -/
def primaryRec (hdr : TarHeader) (checksum : Option (List Nat))
    (startOffset lastOffset : Nat) : FileMetadata :=
  { ftype := .fromHeader hdr.typeflag, name := hdr.name, linkname := hdr.linkname,
    mode := hdr.mode, size := hdr.size, uid := hdr.uid, gid := hdr.gid,
    devmajor := hdr.devmajor, devminor := hdr.devminor,
    digest := checksum, offset := startOffset, endOffset := lastOffset,
    chunkSize := 0, chunkOffset := 0, chunkDigest := none, chunkType := none }

/-- Lines 356-361: the `TypeChunk` record built for a chunk after the
first. -/
def secondaryRec (hdr : TarHeader) (c : Chunk) : FileMetadata :=
  { ftype := .chunkT, name := hdr.name, linkname := 0, mode := 0, size := 0,
    uid := 0, gid := 0, devmajor := 0, devminor := 0, digest := none,
    offset := 0, endOffset := 0, chunkSize := 0, chunkOffset := c.chunkOffset,
    chunkDigest := none, chunkType := none }

/-- Lines 336-370: the metadata records for one entry — the primary
record, one `TypeChunk` record per chunk after the first, and, when more
than one chunk exists, size/offset/digest/type backfilled onto the first
`len(chunks)` records.  (The record list then has exactly
`1 + (len(chunks) - 1) = len(chunks)` records, so `zipWith` performs
exactly the source's `for i := range chunks` loop.) -/
def buildEntries (hdr : TarHeader) (checksum : Option (List Nat))
    (startOffset lastOffset : Nat) (chunks : List Chunk) : List FileMetadata :=
  let primary : FileMetadata := primaryRec hdr checksum startOffset lastOffset
  let secondary : List FileMetadata := (chunks.drop 1).map (secondaryRec hdr)
  if 1 < chunks.length then List.zipWith backfill (primary :: secondary) chunks
  else primary :: secondary

/-- The whole-archive loop of `writeZstdChunkedStream`, over a parsed
sequence of entries (the tar parser, the zstd sink and the manifest
writer are out-of-scope collaborators; `GetType` and the manifest writer
are modelled as total).  The result is
`(returned error, manifest metadata written)`; a `none` manifest means
the function returned before reaching `WriteZstdChunkedManifest`. -/
def streamLoop (offs : Nat → Nat) :
    List (TarHeader × ByteSrc) → Nat →
      Option (Option IOErr × Option (List FileMetadata))
  | [], _ => some (none, some [])
  | (hdr, p) :: rest, k =>
    match processEntry offs p k with
    | none => none
    | some (.readErr e0) => some (e0, none)
    | some (.done st cks) =>
      match streamLoop offs rest st.k with
      | none => none
      | some (e, none) => some (e, none)
      | some (e, some ms) =>
        some (e, some (buildEntries hdr cks st.startOffset st.lastOffset st.chunks ++ ms))

def writeZstdChunkedStream (offs : Nat → Nat)
    (entries : List (TarHeader × ByteSrc)) :
    Option (Option IOErr × Option (List FileMetadata)) :=
  streamLoop offs entries 0

/-- A loop iteration that continues never sets the outer `err` variable
to a non-nil value (its only assignment inside the loop is the checked
`restartCompression` result, nil on the path that continues). -/
theorem entryStep_errVar (offs : Nat → Nat) (st : EntryLoop)
    (r : (Bool × Int × Option IOErr) × List Nat × rollingChecksumReader)
    (hev : st.errVar = none) : (entryStep offs st r).errVar = none := by
  rw [entryStep]
  dsimp only
  simp [apply_ite EntryLoop.errVar, hev]

theorem entryIter_inl_errVar (offs : Nat → Nat) (st st2 : EntryLoop)
    (hev : st.errVar = none) (h : entryIter offs st = .inl st2) : st2.errVar = none := by
  rw [entryIter] at h
  dsimp only at h
  split at h
  · simp at h
  · split at h
    · simp at h
    · simp only [Sum.inl.injEq] at h
      rw [← h]
      exact entryStep_errVar offs st _ hev

/-- The `return err` at line 277 returns the outer `err` variable. -/
theorem entryIter_readErr (offs : Nat → Nat) (st : EntryLoop) (e0 : Option IOErr)
    (h : entryIter offs st = .inr (.readErr e0)) : e0 = st.errVar := by
  rw [entryIter] at h
  dsimp only at h
  split at h
  · simp at h
    exact h.symm
  · split at h <;> simp at h

/-- The outer `err` variable is never non-nil at line 277: every non-nil
assignment to it returns earlier, so the `readErr` outcome always carries
`nil`. -/
theorem entryLoop_readErr_nil (offs : Nat → Nat) :
    ∀ (fuel : Nat) (st : EntryLoop), st.errVar = none →
      ∀ e0, entryLoop offs fuel st = some (.readErr e0) → e0 = none := by
  intro fuel
  induction fuel with
  | zero =>
    intro st hev e0 h
    exact Option.noConfusion h
  | succ fuel ih =>
    intro st hev e0 h
    rw [entryLoop] at h
    cases hit : entryIter offs st with
    | inl st2 =>
      rw [hit] at h
      exact ih st2 (entryIter_inl_errVar offs st st2 hev hit) e0 h
    | inr out =>
      rw [hit] at h
      simp at h
      subst h
      rw [entryIter_readErr offs st e0 hit, hev]

/-- C1 (code bug).  A payload source failing with a non-EOF error: the
loop takes the `return err` branch at line 277, but `err` there is the
stale outer error variable (always nil at that point — `errRead` holds
the real error), so the whole encode returns success (nil) without
writing the manifest, instead of propagating the source error. -/
theorem c1_read_error_swallowed :
    writeZstdChunkedStream (fun j => j + 1)
        [(⟨0, 0, 0, 0, 0, 0, 0, 0, 0⟩, ⟨[5], .other 7⟩)] =
      some (none, none) := by
  decide

/-- C8.  An entry with an empty payload produces exactly one metadata
record: the primary record, with no digest and with `Offset` and
`EndOffset` both zero. -/
theorem c8_empty_payload (offs : Nat → Nat) (k : Nat) (hdr : TarHeader) :
    processEntry offs ⟨[], .eof⟩ k =
      some (.done ⟨⟨⟨⟨[], .eof⟩, 0, holesThreshold, .read⟩, true, newRollSum, 0, 0, false⟩,
        0, 0, 0, [], [], [], k, none⟩ none) ∧
    buildEntries hdr none 0 0 [] =
      [{ ftype := .fromHeader hdr.typeflag, name := hdr.name, linkname := hdr.linkname,
         mode := hdr.mode, size := hdr.size, uid := hdr.uid, gid := hdr.gid,
         devmajor := hdr.devmajor, devminor := hdr.devminor,
         digest := none, offset := 0, endOffset := 0,
         chunkSize := 0, chunkOffset := 0, chunkDigest := none, chunkType := none }] ∧
    (buildEntries hdr none 0 0 []).length = 1 := by
  refine ⟨rfl, rfl, rfl⟩

/-- The single-slot error channel `ch := make(chan error, 1)` of
`zstdChunkedWriterWithLevel`: at most one buffered value (`some v`; `v =
none` models a nil error) and a closed flag (`close(ch)` runs after the
send and the pipe drain in the background goroutine). -/
structure ErrChan where
  slot : Option (Option IOErr)
  closedCh : Bool
deriving DecidableEq, Repr

/-- Receive from the channel: `none` means the receive would block
(empty, not closed); a receive on a closed empty channel yields the zero
value `nil`. -/
def chanRecv (c : ErrChan) : Option (Option IOErr × ErrChan) :=
  match c.slot with
  | some v => some (v, { c with slot := none })
  | none => if c.closedCh then some (none, c) else none

/-- The write end of the `io.Pipe`. -/
structure PipeWriteEnd where
  wclosed : Bool
deriving DecidableEq, Repr

/-- `tarSplitOut.Write`: writing `len` bytes to a closed pipe fails with
`io.ErrClosedPipe` immediately; otherwise the bytes are handed to the
reader (the background drain guarantees this cannot block forever). -/
def pipeWrite (p : PipeWriteEnd) (len : Nat) : Nat × Option IOErr :=
  if p.wclosed then (0, some .closedPipe) else (len, none)

def pipeCloseW (p : PipeWriteEnd) : PipeWriteEnd := { p with wclosed := true }

/-- The `zstdChunkedWriter` struct. -/
structure zstdChunkedWriter where
  tarSplitErr : ErrChan
  tarSplitOut : PipeWriteEnd
deriving DecidableEq, Repr

/-- `zstdChunkedWriter.Close` (lines 394-401): receive the orchestrator's
result (blocking until available — `none` models the blocked case), close
the pipe's write end and return the received error. -/
def zcwClose (w : zstdChunkedWriter) : Option (Option IOErr × zstdChunkedWriter) :=
  (chanRecv w.tarSplitErr).map fun rv =>
    (rv.1, { tarSplitErr := rv.2, tarSplitOut := pipeCloseW w.tarSplitOut })

/-- `zstdChunkedWriter.Write` (lines 403-411): the `select` takes the
channel branch whenever a receive is immediately ready (a buffered value,
or a closed channel yielding nil), closing the pipe and returning `(0,
received)`; otherwise the default branch forwards to the pipe. -/
def zcwWrite (w : zstdChunkedWriter) (len : Nat) :
    (Nat × Option IOErr) × zstdChunkedWriter :=
  match chanRecv w.tarSplitErr with
  | some rv =>
    ((0, rv.1), { tarSplitErr := rv.2, tarSplitOut := pipeCloseW w.tarSplitOut })
  | none => (pipeWrite w.tarSplitOut len, w)

/-- The writer state after `writeZstdChunkedStream` finished with error
`e` and the goroutine sent it on the channel; `chClosed` records whether
the goroutine has already executed `close(ch)` (it does so only after
draining the pipe, so both orderings are observable by the caller). -/
def failedWriter (e : IOErr) (chClosed : Bool) : zstdChunkedWriter :=
  ⟨⟨some (some e), chClosed⟩, ⟨false⟩⟩

/-- C2, counterexample.  After the orchestrator fails with a generic
error, `Close` does return that error — but a subsequent `Write` does
not: depending on whether the background goroutine has already closed
the error channel, `Write` returns `(0, nil)` (receive from a closed
empty channel) or `(0, io.ErrClosedPipe)` (default branch hitting the
pipe that `Close` closed).  In neither ordering does it return the
orchestrator's error. -/
theorem c2_write_after_close_counterexample :
    zcwClose (failedWriter (.other 7) true) =
      some (some (.other 7), ⟨⟨none, true⟩, ⟨true⟩⟩) ∧
    (zcwWrite ⟨⟨none, true⟩, ⟨true⟩⟩ 10).1 ≠ (0, some (.other 7)) ∧
    zcwClose (failedWriter (.other 7) false) =
      some (some (.other 7), ⟨⟨none, false⟩, ⟨true⟩⟩) ∧
    (zcwWrite ⟨⟨none, false⟩, ⟨true⟩⟩ 10).1 ≠ (0, some (.other 7)) := by
  decide

/-- C2, amended.  `Close` after an orchestrator failure returns that
failure; a subsequent `Write` never blocks, but it returns `(0, nil)` if
the background goroutine has already closed the error channel, and
`(0, io.ErrClosedPipe)` otherwise — not the orchestrator's error. -/
theorem c2_close_returns_failure_write_does_not (e : IOErr) :
    (∃ w1, zcwClose (failedWriter e true) = some (some e, w1) ∧
      (zcwWrite w1 10).1 = (0, none)) ∧
    (∃ w1, zcwClose (failedWriter e false) = some (some e, w1) ∧
      (zcwWrite w1 10).1 = (0, some .closedPipe)) := by
  exact ⟨⟨_, rfl, rfl⟩, ⟨_, rfl, rfl⟩⟩

/-- `partitions s cs n`: the chunk records `cs` tile the interval `[s, n)`
exactly — each record starts where the previous one ended, has positive
size, and the last one ends at `n`. -/
def partitions : Nat → List Chunk → Nat → Prop
  | s, [], n => s = n
  | s, c :: cs, n => c.chunkOffset = s ∧ 0 < c.chunkSize ∧
      partitions (s + c.chunkSize) cs n

theorem partitions_snoc (s m : Nat) (cs : List Chunk) (c : Chunk)
    (h : partitions s cs m) (hoff : c.chunkOffset = m) (hsz : 0 < c.chunkSize) :
    partitions s (cs ++ [c]) (m + c.chunkSize) := by
  induction cs generalizing s with
  | nil =>
    simp only [partitions] at h
    subst h
    exact ⟨hoff, hsz, rfl⟩
  | cons a as ihp =>
    obtain ⟨h1, h2, h3⟩ := h
    exact ⟨h1, h2, ihp _ h3⟩

theorem partitions_nonempty (cs : List Chunk) (n : Nat)
    (h : partitions 0 cs n) (hn : 0 < n) : cs ≠ [] := by
  intro hcs
  subst hcs
  simp only [partitions] at h
  omega

/-- Loop invariant of the per-entry payload loop: the reader is
well-formed, the chunk records so far tile `[0, lastChunkOffset)`,
`lastChunkOffset` never exceeds the delivered byte count, delivered plus
remaining bytes equal the payload length, and before the first delivered
byte nothing has been recorded. -/
def EntryInv (pLen : Nat) (st : EntryLoop) : Prop :=
  WFrc st.rc ∧
  partitions 0 st.chunks st.lastChunkOffset ∧
  st.lastChunkOffset ≤ st.rc.writtenOut ∧
  st.rc.writtenOut + (denR st.rc).length = pLen ∧
  (st.startOffset = 0 → st.rc.writtenOut = 0 ∧ st.chunks = [] ∧ st.lastChunkOffset = 0)

/-- Structural decomposition of `entryStep`: an intermediate state `st2`
(the state after the restart/digest block) whose bookkeeping fields are
explicit, followed by the split-record block guarded by the split/EOF
condition. -/
theorem entryStep_core (offs : Nat → Nat) (st : EntryLoop)
    (r : (Bool × Int × Option IOErr) × List Nat × rollingChecksumReader) :
    ∃ st2 : EntryLoop,
      st2.rc = r.2.2 ∧ st2.chunks = st.chunks ∧
      st2.lastChunkOffset = st.lastChunkOffset ∧
      st2.startOffset =
        (if 0 < r.1.2.1 ∧ st.startOffset = 0 then offs st.k else st.startOffset) ∧
      st2.payloadDigester =
        (if 0 < r.1.2.1 then st.payloadDigester ++ r.2.1 else st.payloadDigester) ∧
      st2.chunkDigester =
        (if 0 < r.1.2.1 then st.chunkDigester ++ r.2.1 else st.chunkDigester) ∧
      st2.errVar =
        (if 0 < r.1.2.1 ∧ st.startOffset = 0 then none else st.errVar) ∧
      entryStep offs st r =
        (if (r.1.1 = true ∨ r.1.2.2 = some IOErr.eof) ∧ 0 < st2.startOffset then
          { st2 with k := st2.k + 1,
                     chunks :=
                       if 0 < st2.rc.writtenOut - st2.lastChunkOffset then
                         st2.chunks ++ [{ chunkOffset := st2.lastChunkOffset,
                                          offset := st2.lastOffset,
                                          checksum := st2.chunkDigester,
                                          chunkSize := st2.rc.writtenOut - st2.lastChunkOffset,
                                          chunkType :=
                                            if st2.rc.isLastChunkZeros then CType.zeros
                                            else CType.data }]
                       else st2.chunks,
                     lastOffset := offs st2.k,
                     lastChunkOffset := st2.rc.writtenOut,
                     chunkDigester := [] }
        else st2) := by
  refine ⟨if 0 < r.1.2.1 then
      (if st.startOffset = 0 then
        { st with rc := r.2.2, startOffset := offs st.k, lastOffset := offs st.k,
                  k := st.k + 1, errVar := none,
                  payloadDigester := st.payloadDigester ++ r.2.1,
                  chunkDigester := st.chunkDigester ++ r.2.1 }
      else
        { st with rc := r.2.2,
                  payloadDigester := st.payloadDigester ++ r.2.1,
                  chunkDigester := st.chunkDigester ++ r.2.1 })
    else { st with rc := r.2.2 }, ?_, ?_, ?_, ?_, ?_, ?_, ?_, ?_⟩
  · by_cases hc : 0 < r.1.2.1 <;> by_cases hs0 : st.startOffset = 0 <;> simp [hc, hs0]
  · by_cases hc : 0 < r.1.2.1 <;> by_cases hs0 : st.startOffset = 0 <;> simp [hc, hs0]
  · by_cases hc : 0 < r.1.2.1 <;> by_cases hs0 : st.startOffset = 0 <;> simp [hc, hs0]
  · by_cases hc : 0 < r.1.2.1 <;> by_cases hs0 : st.startOffset = 0 <;> simp [hc, hs0]
  · by_cases hc : 0 < r.1.2.1 <;> by_cases hs0 : st.startOffset = 0 <;> simp [hc, hs0]
  · by_cases hc : 0 < r.1.2.1 <;> by_cases hs0 : st.startOffset = 0 <;> simp [hc, hs0]
  · by_cases hc : 0 < r.1.2.1 <;> by_cases hs0 : st.startOffset = 0 <;> simp [hc, hs0]
  · rw [entryStep]
    dsimp only
    by_cases hc : 0 < r.1.2.1 <;> by_cases hs0 : st.startOffset = 0 <;>
      simp only [hc, hs0, if_true, if_false, ite_true, ite_false]

/-- Main loop theorem: from any invariant state, with fuel above the
reader measure, the loop terminates in a `done` outcome whose chunk
records tile the whole payload `[0, pLen)`. -/
theorem entry_main (offs : Nat → Nat) (hoff : ∀ j, 0 < offs j) (pLen : Nat) :
    ∀ (fuel : Nat) (st : EntryLoop), EntryInv pLen st → Mrc st.rc < fuel →
      ∃ st2 cks, entryLoop offs fuel st = some (.done st2 cks) ∧
        partitions 0 st2.chunks pLen := by
  intro fuel
  induction fuel with
  | zero =>
    intro st _ hm
    omega
  | succ fuel ih =>
    intro st hinv hm
    obtain ⟨hwf, hpart, hle, hsum, hzero⟩ := hinv
    obtain ⟨hwf2, hthr2, hden2, hwo2, hnone2, hsome2⟩ :=
      rcRead_spec st.rc bufSize (by decide) hwf
    obtain ⟨st2, h2rc, h2ck, h2lo, h2so, h2pd, h2cd, h2ev, hstep⟩ :=
      entryStep_core offs st (rcRead st.rc bufSize)
    have hlen2 : (denR st.rc).length =
        (rcRead st.rc bufSize).2.1.length + (denR (rcRead st.rc bufSize).2.2).length := by
      rw [hden2]
      simp
    rw [entryLoop]
    rcases hE : (rcRead st.rc bufSize).1.2.2 with _ | e
    · -- no error: the loop continues with the stepped state
      rw [entryIter_none offs st hE]
      obtain ⟨hcnt, hmdec⟩ := hnone2 hE
      rw [hstep]
      by_cases hg : ((rcRead st.rc bufSize).1.1 = true ∨
          (rcRead st.rc bufSize).1.2.2 = some IOErr.eof) ∧ 0 < st2.startOffset
      · rw [if_pos hg]
        refine ih _ ⟨?_, ?_, ?_, ?_, ?_⟩ ?_
        · show WFrc st2.rc
          rw [h2rc]
          exact hwf2
        · show partitions 0 _ st2.rc.writtenOut
          dsimp only
          rw [h2rc, h2ck, h2lo]
          have hlew : st.lastChunkOffset ≤ (rcRead st.rc bufSize).2.2.writtenOut := by
            rw [hwo2]
            omega
          by_cases hsz : 0 < (rcRead st.rc bufSize).2.2.writtenOut - st.lastChunkOffset
          · rw [if_pos hsz]
            have hp2 := partitions_snoc 0 st.lastChunkOffset st.chunks
              { chunkOffset := st.lastChunkOffset, offset := st2.lastOffset,
                checksum := st2.chunkDigester,
                chunkSize := (rcRead st.rc bufSize).2.2.writtenOut - st.lastChunkOffset,
                chunkType := if (rcRead st.rc bufSize).2.2.isLastChunkZeros then CType.zeros
                  else CType.data }
              hpart rfl hsz
            rwa [show st.lastChunkOffset +
              ((rcRead st.rc bufSize).2.2.writtenOut - st.lastChunkOffset) =
                (rcRead st.rc bufSize).2.2.writtenOut from by omega] at hp2
          · rw [if_neg hsz]
            rwa [show (rcRead st.rc bufSize).2.2.writtenOut = st.lastChunkOffset
              from by omega]
        · show st2.rc.writtenOut ≤ _
          dsimp only
          exact le_rfl
        · show st2.rc.writtenOut + (denR st2.rc).length = pLen
          rw [h2rc, hwo2]
          omega
        · intro h0
          dsimp only at h0
          omega
        · show Mrc st2.rc < fuel
          rw [h2rc]
          omega
      · rw [if_neg hg]
        refine ih _ ⟨?_, ?_, ?_, ?_, ?_⟩ ?_
        · rw [h2rc]
          exact hwf2
        · rw [h2ck, h2lo]
          exact hpart
        · rw [h2lo, h2rc, hwo2]
          omega
        · rw [h2rc, hwo2]
          omega
        · intro h0
          rw [h2so] at h0
          rw [h2rc, h2ck, h2lo, hwo2]
          by_cases hc : 0 < (rcRead st.rc bufSize).1.2.1
          · by_cases hs0 : st.startOffset = 0
            · rw [if_pos ⟨hc, hs0⟩] at h0
              exact absurd h0 (by have := hoff st.k; omega)
            · rw [if_neg (by tauto)] at h0
              exact absurd h0 hs0
          · rw [if_neg (by tauto)] at h0
            obtain ⟨hw0, hck0, hlo0⟩ := hzero h0
            have hout0 : (rcRead st.rc bufSize).2.1.length = 0 := by
              rw [hcnt] at hc
              simpa using hc
            refine ⟨by omega, hck0, hlo0⟩
        · rw [h2rc]
          omega
    · -- end of stream: the loop finishes
      obtain ⟨heof, hout0, hcnt0, hdenR0, hclos, hwo0⟩ := hsome2 e hE
      subst heof
      rw [entryIter_eof offs st hE]
      refine ⟨_, _, rfl, ?_⟩
      have hplen : pLen = st.rc.writtenOut := by
        rw [hdenR0] at hsum
        simpa using hsum.symm
      rw [hstep]
      by_cases hg : ((rcRead st.rc bufSize).1.1 = true ∨
          (rcRead st.rc bufSize).1.2.2 = some IOErr.eof) ∧ 0 < st2.startOffset
      · rw [if_pos hg]
        dsimp only
        rw [h2rc, h2ck, h2lo, hwo0, ← hplen]
        by_cases hsz : 0 < pLen - st.lastChunkOffset
        · rw [if_pos hsz]
          have hp2 := partitions_snoc 0 st.lastChunkOffset st.chunks
            { chunkOffset := st.lastChunkOffset, offset := st2.lastOffset,
              checksum := st2.chunkDigester,
              chunkSize := pLen - st.lastChunkOffset,
              chunkType := if (rcRead st.rc bufSize).2.2.isLastChunkZeros then CType.zeros
                else CType.data }
            hpart rfl hsz
          have hlew : st.lastChunkOffset ≤ pLen := by omega
          rwa [show st.lastChunkOffset + (pLen - st.lastChunkOffset) = pLen
            from by omega] at hp2
        · rw [if_neg hsz]
          have hlew : st.lastChunkOffset ≤ pLen := by rw [hplen]; exact hle
          rwa [show pLen = st.lastChunkOffset from by omega]
      · rw [if_neg hg]
        rw [h2ck]
        have hso0 : st2.startOffset = 0 := by
          by_contra hne
          exact hg ⟨Or.inr hE, by omega⟩
        rw [h2so] at hso0
        by_cases hc : 0 < (rcRead st.rc bufSize).1.2.1
        · exact absurd hc (by rw [hcnt0]; decide)
        · rw [if_neg (by tauto)] at hso0
          obtain ⟨hw0, hck0, _⟩ := hzero hso0
          rw [hck0]
          show partitions 0 [] pLen
          rw [partitions]
          omega

/-- `backfill` leaves `chunkOffset` and `ftype` untouched, so a
projection that it preserves passes through the backfill `zipWith`. -/
theorem map_zipWith_backfill {α : Type} (g : FileMetadata → α)
    (hg : ∀ e c, g (backfill e c) = g e) :
    ∀ (es : List FileMetadata) (cs : List Chunk), es.length = cs.length →
      (List.zipWith backfill es cs).map g = es.map g
  | [], [], _ => rfl
  | [], _ :: _, h => by simp at h
  | _ :: _, [], h => by simp at h
  | e :: es, c :: cs, h => by
    simp only [List.zipWith, List.map, hg]
    rw [map_zipWith_backfill g hg es cs (by simpa using h)]

/-- The record list for one entry has `max 1 (number of chunks)`
records. -/
theorem buildEntries_length (hdr : TarHeader) (cks : Option (List Nat))
    (so lo : Nat) (chunks : List Chunk) :
    (buildEntries hdr cks so lo chunks).length = max 1 chunks.length := by
  rw [buildEntries]
  by_cases h : 1 < chunks.length
  · rw [if_pos h]
    simp
    omega
  · rw [if_neg h]
    simp
    omega

/-- The records' `ChunkOffset` column equals the chunks' offsets (the
primary record keeps offset 0, which is the first chunk's offset). -/
theorem buildEntries_chunkOffsets (hdr : TarHeader) (cks : Option (List Nat))
    (so lo : Nat) (c : Chunk) (cs : List Chunk) (h0 : c.chunkOffset = 0) :
    (buildEntries hdr cks so lo (c :: cs)).map FileMetadata.chunkOffset =
      (c :: cs).map Chunk.chunkOffset := by
  rw [buildEntries]
  by_cases h : 1 < (c :: cs).length
  · rw [if_pos h]
    rw [map_zipWith_backfill FileMetadata.chunkOffset (fun _ _ => rfl) _ _ (by simp)]
    simp [primaryRec, secondaryRec, h0]
  · rw [if_neg h]
    have hnil : cs = [] := by
      cases cs
      · rfl
      · simp at h
    subst hnil
    simp [primaryRec, h0]

/-- The records' type column: one primary record followed by one
`TypeChunk` record per chunk after the first. -/
theorem buildEntries_ftypes (hdr : TarHeader) (cks : Option (List Nat))
    (so lo : Nat) (chunks : List Chunk) :
    (buildEntries hdr cks so lo chunks).map FileMetadata.ftype =
      EntryType.fromHeader hdr.typeflag ::
        (chunks.drop 1).map (fun _ => EntryType.chunkT) := by
  have hmap : ∀ cs : List Chunk,
      List.map (FileMetadata.ftype ∘ secondaryRec hdr) cs =
        List.replicate cs.length EntryType.chunkT := by
    intro cs
    induction cs with
    | nil => rfl
    | cons c cs ih => simp [ih, secondaryRec, Function.comp, List.replicate]
  rw [buildEntries]
  by_cases h : 1 < chunks.length
  · rw [if_pos h]
    rw [map_zipWith_backfill FileMetadata.ftype (fun _ _ => rfl) _ _
      (by simp; omega)]
    simp [primaryRec, hmap]
  · rw [if_neg h]
    simp [primaryRec, hmap]

/-- A tiling's chunk offsets are strictly increasing. -/
theorem partitions_chain : ∀ (s : Nat) (cs : List Chunk) (n : Nat),
    partitions s cs n →
      List.Chain' (fun a b : Nat => a < b) (cs.map Chunk.chunkOffset)
  | _, [], _, _ => List.chain'_nil
  | _, [_], _, _ => by simp
  | s, c :: c2 :: cs, n, h => by
    obtain ⟨h1, h2, h3⟩ := h
    have h4 := h3.1
    exact List.Chain'.cons (by omega) (partitions_chain _ (c2 :: cs) _ h3)

/-- The fresh per-entry state satisfies the loop invariant. -/
theorem initEntry_inv (p : List Nat) (k : Nat) :
    EntryInv p.length (initEntry ⟨p, IOErr.eof⟩ k) := by
  refine ⟨⟨⟨rfl, ?_, ?_⟩, ?_⟩, rfl, le_rfl, ?_, fun _ => ⟨rfl, rfl, rfl⟩⟩
  · intro h
    simp [initEntry, initRCReader] at h
  · intro h
    simp [initEntry, initRCReader] at h
  · intro h
    simp [initEntry, initRCReader] at h
  · show 0 + (denR (initRCReader ⟨p, IOErr.eof⟩)).length = p.length
    simp [initRCReader, denR, den]

/-- The per-entry fuel bound exceeds the fresh reader's measure. -/
theorem initEntry_measure (p : List Nat) (k : Nat) :
    Mrc (initEntry ⟨p, IOErr.eof⟩ k).rc < entryFuel ⟨p, IOErr.eof⟩ := by
  show Mrc (initRCReader ⟨p, IOErr.eof⟩) < entryFuel ⟨p, IOErr.eof⟩
  rw [entryFuel]
  simp [Mrc, initRCReader, den]
  omega

/-- C3.  An entry with a nonempty payload splits into `N ≥ 1` chunks; the
metadata gains exactly `N` records for it — one primary followed by
`N - 1` secondary `TypeChunk` records — placed before the later entries'
records in traversal order; the records' `ChunkOffset` values are the
chunks' offsets, strictly increasing, and the chunks tile
`[0, payload size)` with no gaps or overlaps. -/
theorem c3_chunk_records (offs : Nat → Nat) (hoff : ∀ j, 0 < offs j)
    (hdr : TarHeader) (p : List Nat) (k : Nat) (hp : p ≠ []) :
    ∃ st2 cks, processEntry offs ⟨p, IOErr.eof⟩ k = some (.done st2 cks) ∧
      1 ≤ st2.chunks.length ∧
      (buildEntries hdr cks st2.startOffset st2.lastOffset st2.chunks).length =
        st2.chunks.length ∧
      (buildEntries hdr cks st2.startOffset st2.lastOffset st2.chunks).map
          FileMetadata.ftype =
        EntryType.fromHeader hdr.typeflag ::
          (st2.chunks.drop 1).map (fun _ => EntryType.chunkT) ∧
      (buildEntries hdr cks st2.startOffset st2.lastOffset st2.chunks).map
          FileMetadata.chunkOffset = st2.chunks.map Chunk.chunkOffset ∧
      List.Chain' (fun a b : Nat => a < b) (st2.chunks.map Chunk.chunkOffset) ∧
      partitions 0 st2.chunks p.length ∧
      (∀ rest e ms, streamLoop offs rest st2.k = some (e, some ms) →
        streamLoop offs ((hdr, ⟨p, IOErr.eof⟩) :: rest) k =
          some (e, some (buildEntries hdr cks st2.startOffset st2.lastOffset
            st2.chunks ++ ms))) := by
  obtain ⟨st2, cks, hrun, hpart⟩ :=
    entry_main offs hoff p.length (entryFuel ⟨p, IOErr.eof⟩)
      (initEntry ⟨p, IOErr.eof⟩ k) (initEntry_inv p k) (initEntry_measure p k)
  have hplen : 0 < p.length := List.length_pos.mpr hp
  have hne : st2.chunks ≠ [] := partitions_nonempty st2.chunks p.length hpart hplen
  have hlen1 : 1 ≤ st2.chunks.length := List.length_pos.mpr hne
  refine ⟨st2, cks, hrun, hlen1, ?_, buildEntries_ftypes hdr cks _ _ _, ?_,
    partitions_chain 0 st2.chunks p.length hpart, hpart, ?_⟩
  · rw [buildEntries_length]
    omega
  · rcases hc : st2.chunks with _ | ⟨c, cs⟩
    · exact absurd hc hne
    · rw [hc] at hpart
      exact buildEntries_chunkOffsets hdr cks _ _ c cs hpart.1
  · intro rest e ms hrest
    rw [streamLoop]
    have hrun2 : processEntry offs ⟨p, IOErr.eof⟩ k = some (.done st2 cks) := hrun
    rw [hrun2]
    simp only []
    rw [hrest]

theorem c3_chunk_records_witness :
    (∀ j : Nat, 0 < j + 1) ∧ ([1, 0, 2] : List Nat) ≠ [] ∧
    (∃ st2 cks, processEntry (fun j => j + 1) ⟨[1, 0, 2], IOErr.eof⟩ 0 =
        some (.done st2 cks) ∧
      1 ≤ st2.chunks.length ∧
      (buildEntries ⟨0, 0, 0, 0, 0, 0, 0, 0, 0⟩ cks st2.startOffset st2.lastOffset
          st2.chunks).length = st2.chunks.length ∧
      (buildEntries ⟨0, 0, 0, 0, 0, 0, 0, 0, 0⟩ cks st2.startOffset st2.lastOffset
          st2.chunks).map FileMetadata.ftype =
        EntryType.fromHeader (0 : Nat) ::
          (st2.chunks.drop 1).map (fun _ => EntryType.chunkT) ∧
      (buildEntries ⟨0, 0, 0, 0, 0, 0, 0, 0, 0⟩ cks st2.startOffset st2.lastOffset
          st2.chunks).map FileMetadata.chunkOffset =
        st2.chunks.map Chunk.chunkOffset ∧
      List.Chain' (fun a b : Nat => a < b) (st2.chunks.map Chunk.chunkOffset) ∧
      partitions 0 st2.chunks ([1, 0, 2] : List Nat).length ∧
      (∀ rest e ms, streamLoop (fun j => j + 1) rest st2.k = some (e, some ms) →
        streamLoop (fun j => j + 1)
            ((⟨0, 0, 0, 0, 0, 0, 0, 0, 0⟩, ⟨[1, 0, 2], IOErr.eof⟩) :: rest) 0 =
          some (e, some (buildEntries ⟨0, 0, 0, 0, 0, 0, 0, 0, 0⟩ cks
            st2.startOffset st2.lastOffset st2.chunks ++ ms)))) :=
  ⟨fun j => Nat.succ_pos j, by decide,
    c3_chunk_records (fun j => j + 1) (fun j => Nat.succ_pos j)
      ⟨0, 0, 0, 0, 0, 0, 0, 0, 0⟩ [1, 0, 2] 0 (by decide)⟩

/-- Driving the chunk reader to exhaustion: the byte sequences delivered
by successive `Read` calls until the first `io.EOF`, fuel-indexed. -/
def rcDrainAll : Nat → rollingChecksumReader → Option (List (List Nat))
  | 0, _ => none
  | fuel + 1, rc =>
    match (rcRead rc bufSize).1.2.2 with
    | some e => if e = IOErr.eof then some [] else none
    | none =>
      (rcDrainAll fuel (rcRead rc bufSize).2.2).map
        (fun outs => (rcRead rc bufSize).2.1 :: outs)

/-- With enough fuel, draining a well-formed reader terminates at a clean
EOF and the delivered sequences concatenate to the reader's remaining
denotation. -/
theorem rcDrainAll_spec : ∀ (fuel : Nat) (rc : rollingChecksumReader),
    WFrc rc → Mrc rc < fuel →
      ∃ outs, rcDrainAll fuel rc = some outs ∧ outs.flatten = denR rc := by
  intro fuel
  induction fuel with
  | zero =>
    intro rc _ hm
    omega
  | succ fuel ih =>
    intro rc hwf hm
    obtain ⟨hwf2, hthr2, hden2, hwo2, hnone2, hsome2⟩ :=
      rcRead_spec rc bufSize (by decide) hwf
    rcases hE : (rcRead rc bufSize).1.2.2 with _ | e
    · obtain ⟨hcnt, hmdec⟩ := hnone2 hE
      obtain ⟨outs, hd, hf⟩ := ih (rcRead rc bufSize).2.2 hwf2 (by omega)
      refine ⟨(rcRead rc bufSize).2.1 :: outs, ?_, ?_⟩
      · rw [rcDrainAll, hE]
        simp only []
        rw [hd]
        rfl
      · rw [List.flatten_cons, hf, hden2]
    · obtain ⟨heof, hout0, hcnt0, hdenR0, hclos, hwo0⟩ := hsome2 e hE
      subst heof
      refine ⟨[], ?_, ?_⟩
      · rw [rcDrainAll, hE]
        rfl
      · rw [hdenR0]
        rfl

/-- C4.  For a payload with no zero run of at least the hole threshold,
the chunk reader terminates at EOF and concatenating the byte sequences
it delivered reproduces the payload exactly. -/
theorem c4_concat_reproduces (p : List Nat)
    (hz : ¬ List.replicate holesThreshold 0 <:+: p) :
    ∃ outs, rcDrainAll (2 * p.length + 4) (initRCReader ⟨p, IOErr.eof⟩) = some outs ∧
      outs.flatten = p := by
  have hwf : WFrc (initRCReader ⟨p, IOErr.eof⟩) := by
    refine ⟨⟨rfl, ?_, ?_⟩, ?_⟩
    · intro h
      simp [initRCReader] at h
    · intro h
      simp [initRCReader] at h
    · intro h
      simp [initRCReader] at h
  have hden : denR (initRCReader ⟨p, IOErr.eof⟩) = p := by
    simp [initRCReader, denR, den]
  have hm : Mrc (initRCReader ⟨p, IOErr.eof⟩) < 2 * p.length + 4 := by
    simp [Mrc, initRCReader, den]
    omega
  obtain ⟨outs, hd, hf⟩ :=
    rcDrainAll_spec (2 * p.length + 4) (initRCReader ⟨p, IOErr.eof⟩) hwf hm
  exact ⟨outs, hd, by rw [hf, hden]⟩

theorem c4_concat_reproduces_witness :
    (¬ List.replicate holesThreshold 0 <:+: ([1, 2, 0, 3] : List Nat)) ∧
    (∃ outs, rcDrainAll (2 * ([1, 2, 0, 3] : List Nat).length + 4)
        (initRCReader ⟨[1, 2, 0, 3], IOErr.eof⟩) = some outs ∧
      outs.flatten = [1, 2, 0, 3]) :=
  ⟨by decide, c4_concat_reproduces [1, 2, 0, 3] (by decide)⟩

/-- The boundary-and-checksum content of a chunk record: split position,
size, digest and kind — everything except the oracle-dependent compressed
offset. -/
def chunkCore (c : Chunk) : Nat × Nat × List Nat × CType :=
  (c.chunkOffset, c.chunkSize, c.checksum, c.chunkType)

/-- Two per-entry loop states that agree on everything the chunking
decisions depend on; they may differ in the oracle-derived compressed
offsets and the restart counter. -/
def EntrySim (st st' : EntryLoop) : Prop :=
  st.rc = st'.rc ∧
  st.chunks.map chunkCore = st'.chunks.map chunkCore ∧
  st.lastChunkOffset = st'.lastChunkOffset ∧
  st.payloadDigester = st'.payloadDigester ∧
  st.chunkDigester = st'.chunkDigester ∧
  (st.startOffset = 0 ↔ st'.startOffset = 0) ∧
  st.errVar = st'.errVar

/-- One loop-body step preserves the similarity relation, for any two
positive compressed-offset oracles fed the same `Read` result. -/
theorem entryStep_sim (offs1 offs2 : Nat → Nat)
    (hoff1 : ∀ j, 0 < offs1 j) (hoff2 : ∀ j, 0 < offs2 j)
    (st st' : EntryLoop)
    (r : (Bool × Int × Option IOErr) × List Nat × rollingChecksumReader)
    (h : EntrySim st st') :
    EntrySim (entryStep offs1 st r) (entryStep offs2 st' r) := by
  obtain ⟨hrc, hck, hlo, hpd, hcd, hso, hev⟩ := h
  obtain ⟨a, harc, hack, halo, haso, hapd, hacd, haev, hastep⟩ := entryStep_core offs1 st r
  obtain ⟨b, hbrc, hbck, hblo, hbso, hbpd, hbcd, hbev, hbstep⟩ := entryStep_core offs2 st' r
  have hrcw : a.rc = b.rc := by rw [harc, hbrc]
  have hlo2 : a.lastChunkOffset = b.lastChunkOffset := by rw [halo, hblo, hlo]
  have hck2 : a.chunks.map chunkCore = b.chunks.map chunkCore := by rw [hack, hbck, hck]
  have hcd2 : a.chunkDigester = b.chunkDigester := by rw [hacd, hbcd, hcd]
  have hpd2 : a.payloadDigester = b.payloadDigester := by rw [hapd, hbpd, hpd]
  have hev2 : a.errVar = b.errVar := by
    rw [haev, hbev]
    by_cases hc : 0 < r.1.2.1
    · by_cases hs0 : st.startOffset = 0
      · rw [if_pos ⟨hc, hs0⟩, if_pos ⟨hc, hso.mp hs0⟩]
      · rw [if_neg (fun hh => hs0 hh.2), if_neg (fun hh => hs0 (hso.mpr hh.2))]
        exact hev
    · rw [if_neg (by tauto), if_neg (by tauto)]
      exact hev
  have hso2 : (0 < a.startOffset ↔ 0 < b.startOffset) := by
    rw [haso, hbso]
    by_cases hc : 0 < r.1.2.1
    · by_cases hs0 : st.startOffset = 0
      · rw [if_pos ⟨hc, hs0⟩, if_pos ⟨hc, hso.mp hs0⟩]
        exact ⟨fun _ => hoff2 _, fun _ => hoff1 _⟩
      · have hs0' : ¬ st'.startOffset = 0 := fun hh => hs0 (hso.mpr hh)
        rw [if_neg (fun hh => hs0 hh.2), if_neg (fun hh => hs0' hh.2)]
        omega
    · rw [if_neg (by tauto), if_neg (by tauto)]
      omega
  have hso3 : (a.startOffset = 0 ↔ b.startOffset = 0) := by omega
  rw [hastep, hbstep]
  by_cases hg : (r.1.1 = true ∨ r.1.2.2 = some IOErr.eof) ∧ 0 < a.startOffset
  · have hg' : (r.1.1 = true ∨ r.1.2.2 = some IOErr.eof) ∧ 0 < b.startOffset :=
      ⟨hg.1, hso2.mp hg.2⟩
    rw [if_pos hg, if_pos hg']
    refine ⟨?_, ?_, ?_, ?_, ?_, ?_, ?_⟩
    · exact hrcw
    · show (if 0 < a.rc.writtenOut - a.lastChunkOffset then _ else a.chunks).map chunkCore
        = (if 0 < b.rc.writtenOut - b.lastChunkOffset then _ else b.chunks).map chunkCore
      by_cases hsz : 0 < a.rc.writtenOut - a.lastChunkOffset
      · have hsz' : 0 < b.rc.writtenOut - b.lastChunkOffset := by
          rw [← hrcw, ← hlo2]
          exact hsz
        rw [if_pos hsz, if_pos hsz']
        rw [List.map_append, List.map_append, hck2]
        simp [chunkCore, hlo2, hrcw, hcd2]
      · have hsz' : ¬ 0 < b.rc.writtenOut - b.lastChunkOffset := by
          rw [← hrcw, ← hlo2]
          exact hsz
        rw [if_neg hsz, if_neg hsz']
        exact hck2
    · show a.rc.writtenOut = b.rc.writtenOut
      rw [hrcw]
    · exact hpd2
    · rfl
    · exact hso3
    · exact hev2
  · have hg' : ¬ ((r.1.1 = true ∨ r.1.2.2 = some IOErr.eof) ∧ 0 < b.startOffset) :=
      fun hh => hg ⟨hh.1, hso2.mpr hh.2⟩
    rw [if_neg hg, if_neg hg']
    exact ⟨hrcw, hck2, hlo2, hpd2, hcd2, hso3, hev2⟩

/-- The two loops run in lockstep: with equal fuel they either both run
out, both stop at the same (stale) read error, or both finish with the
same checksum and the same chunk boundary data. -/
theorem entryLoop_sim (offs1 offs2 : Nat → Nat)
    (hoff1 : ∀ j, 0 < offs1 j) (hoff2 : ∀ j, 0 < offs2 j) :
    ∀ (fuel : Nat) (st st' : EntryLoop), EntrySim st st' →
      (entryLoop offs1 fuel st = none ∧ entryLoop offs2 fuel st' = none) ∨
      (∃ e, entryLoop offs1 fuel st = some (.readErr e) ∧
        entryLoop offs2 fuel st' = some (.readErr e)) ∨
      (∃ s1 s2 cks, entryLoop offs1 fuel st = some (.done s1 cks) ∧
        entryLoop offs2 fuel st' = some (.done s2 cks) ∧
        s1.chunks.map chunkCore = s2.chunks.map chunkCore) := by
  intro fuel
  induction fuel with
  | zero =>
    intro st st' h
    exact Or.inl ⟨rfl, rfl⟩
  | succ fuel ih =>
    intro st st' h
    have hrc : st.rc = st'.rc := h.1
    rw [entryLoop, entryLoop]
    rcases hE : (rcRead st.rc bufSize).1.2.2 with _ | e
    · have hE' : (rcRead st'.rc bufSize).1.2.2 = none := by rw [← hrc]; exact hE
      have h1 := entryIter_none offs1 st hE
      have h2 := entryIter_none offs2 st' hE'
      rw [← hrc] at h2
      rw [h1, h2]
      exact ih _ _ (entryStep_sim offs1 offs2 hoff1 hoff2 st st' _ h)
    · by_cases heof : e = IOErr.eof
      · subst heof
        have hE' : (rcRead st'.rc bufSize).1.2.2 = some IOErr.eof := by
          rw [← hrc]; exact hE
        have h1 := entryIter_eof offs1 st hE
        have h2 := entryIter_eof offs2 st' hE'
        rw [← hrc] at h2
        rw [h1, h2]
        simp only []
        have hsim3 := entryStep_sim offs1 offs2 hoff1 hoff2 st st'
          (rcRead st.rc bufSize) h
        obtain ⟨_, hck3, _, hpd3, _, hso3, _⟩ := hsim3
        have hcks :
            (if 0 < (entryStep offs2 st' (rcRead st.rc bufSize)).startOffset then
                some (entryStep offs2 st' (rcRead st.rc bufSize)).payloadDigester
              else none) =
            (if 0 < (entryStep offs1 st (rcRead st.rc bufSize)).startOffset then
                some (entryStep offs1 st (rcRead st.rc bufSize)).payloadDigester
              else none) := by
          by_cases hp : 0 < (entryStep offs1 st (rcRead st.rc bufSize)).startOffset
          · rw [if_pos hp, if_pos (by omega), hpd3]
          · rw [if_neg hp, if_neg (by omega)]
        refine Or.inr (Or.inr ⟨_, _, _, rfl, ?_, hck3⟩)
        rw [hcks]
      · have hcond1 : (rcRead st.rc bufSize).1.2.2 ≠ none ∧
            (rcRead st.rc bufSize).1.2.2 ≠ some IOErr.eof := by
          rw [hE]
          exact ⟨by simp, by simp [heof]⟩
        have hcond2 : (rcRead st'.rc bufSize).1.2.2 ≠ none ∧
            (rcRead st'.rc bufSize).1.2.2 ≠ some IOErr.eof := by
          rw [← hrc]
          exact hcond1
        have h1 := entryIter_err offs1 st hcond1
        have h2 := entryIter_err offs2 st' hcond2
        rw [h1, h2]
        simp only []
        exact Or.inr (Or.inl ⟨st.errVar, rfl, by rw [h.2.2.2.2.2.2]⟩)

/-- C9.  Chunking is deterministic: two runs over the same payload bytes
— even with different compressed-offset environments and restart counters
— produce the same sequence of chunk boundaries (offset, size, kind) and
the same chunk and payload checksums. -/
theorem c9_deterministic_chunking (offs1 offs2 : Nat → Nat)
    (hoff1 : ∀ j, 0 < offs1 j) (hoff2 : ∀ j, 0 < offs2 j)
    (p : List Nat) (k1 k2 : Nat) :
    ∃ st1 st2 cks, processEntry offs1 ⟨p, IOErr.eof⟩ k1 = some (.done st1 cks) ∧
      processEntry offs2 ⟨p, IOErr.eof⟩ k2 = some (.done st2 cks) ∧
      st1.chunks.map chunkCore = st2.chunks.map chunkCore := by
  obtain ⟨s1, cks, hrun1, hpart1⟩ :=
    entry_main offs1 hoff1 p.length (entryFuel ⟨p, IOErr.eof⟩)
      (initEntry ⟨p, IOErr.eof⟩ k1) (initEntry_inv p k1) (initEntry_measure p k1)
  have hsim := entryLoop_sim offs1 offs2 hoff1 hoff2 (entryFuel ⟨p, IOErr.eof⟩)
    (initEntry ⟨p, IOErr.eof⟩ k1) (initEntry ⟨p, IOErr.eof⟩ k2)
    ⟨rfl, rfl, rfl, rfl, rfl, Iff.rfl, rfl⟩
  rcases hsim with ⟨ha, _⟩ | ⟨e, ha, _⟩ | ⟨s1b, s2, cks2, ha, hb, hcore⟩
  · rw [hrun1] at ha
    simp at ha
  · rw [hrun1] at ha
    simp at ha
  · exact ⟨s1b, s2, cks2, ha, hb, hcore⟩

theorem c9_deterministic_chunking_witness :
    (∀ j : Nat, 0 < j + 1) ∧ (∀ j : Nat, 0 < j + 2) ∧
    (∃ st1 st2 cks,
      processEntry (fun j => j + 1) ⟨[1, 0, 2], IOErr.eof⟩ 0 =
        some (.done st1 cks) ∧
      processEntry (fun j => j + 2) ⟨[1, 0, 2], IOErr.eof⟩ 5 =
        some (.done st2 cks) ∧
      st1.chunks.map chunkCore = st2.chunks.map chunkCore) :=
  ⟨fun j => Nat.succ_pos j, fun j => Nat.succ_pos (j + 1),
    c9_deterministic_chunking (fun j => j + 1) (fun j => j + 2)
      (fun j => Nat.succ_pos j) (fun j => Nat.succ_pos (j + 1)) [1, 0, 2] 0 5⟩

/-- From state `read` with no pending zeros, a run of `L ≥ threshold`
zeros delimited by a nonzero byte or the end of the stream is consumed in
one call and emitted as a single hole event of length exactly `L`. -/
theorem hfReadByte_read_run (thr L : Nat) (rest : List Nat) (hnz : headNonzero rest)
    (hthr : 1 ≤ thr) (hL : thr ≤ L) :
    hfReadByte ⟨⟨List.replicate L 0 ++ rest, .eof⟩, 0, thr, .read⟩ =
      ((L, 0, none),
        ⟨⟨rest, .eof⟩, 0, thr, if rest.isEmpty then .eofS else .read⟩) := by
  obtain ⟨L1, rfl⟩ : ∃ L1, L = L1 + 1 := ⟨L - 1, by omega⟩
  rw [show (List.replicate (L1 + 1) 0 ++ rest) = 0 :: (List.replicate L1 0 ++ rest) by
    simp [List.replicate_succ]]
  rw [hfStep_read_zero _ (List.replicate L1 0 ++ rest) rfl rfl rfl]
  by_cases h1 : 1 = thr
  · rw [show (if 1 = thr then HFState.found else .accumulate) = .found by simp [h1]]
    rw [hfReadByte_found_run thr L1 1 rest hnz]
    rw [show 1 + L1 = L1 + 1 from by omega]
  · rw [show (if 1 = thr then HFState.found else .accumulate) = .accumulate by simp [h1]]
    rw [hfReadByte_acc_run thr L1 1 rest hnz le_rfl (by omega)]
    rw [if_neg (show ¬(1 + L1 < thr) by omega)]
    rw [show 1 + L1 = L1 + 1 from by omega]

/-- A `Read` call on an open reader with no pending hole runs the
byte-filling loop on a cleared buffer. -/
theorem rcRead_open (rc : rollingChecksumReader) (n : Nat)
    (hph : rc.pendingHole = 0) (hcl : rc.closed = false) :
    rcRead rc n =
      rcReadLoop n [] ⟨rc.reader, false, rc.rollsum, 0, rc.writtenOut, false⟩ := by
  rw [rcRead]
  simp [hph, hcl]

/-- A `Read` call with a pending hole not larger than the buffer delivers
the whole hole as zeros and terminates the chunk. -/
theorem rcRead_drain (f : HolesFinder) (rs : RollSum) (w n ph : Nat) (ilz : Bool)
    (hph : 0 < ph) (hn : ph ≤ n) :
    rcRead ⟨f, false, rs, ph, w, ilz⟩ n =
      ((true, (ph : Int), none), List.replicate ph 0,
        ⟨f, false, rs, 0, w + ph, true⟩) := by
  rw [rcRead]
  simp [hph, Nat.min_eq_left hn]

/-- The filling loop over a stream of nonzero bytes `d` followed by a
hole of exactly `thr` zeros and then `t`: the call delivers some prefix
`u` of `d` and either stops within `d` (by a checksum split or a full
buffer) or consumes exactly all of `d`, discovers the hole, and stops
with the hole pending. -/
theorem rcLoopA (thr : Nat) (t : List Nat) (hthr : 1 ≤ thr) (ht : t ≠ [])
    (hnz : headNonzero t) :
    ∀ (cap : Nat) (d acc : List Nat) (rs : RollSum) (w : Nat) (ilz : Bool),
      (∀ b ∈ d, b ≠ 0) →
      ∃ u v rs2 ms, d = u ++ v ∧
        (rcReadLoop cap acc
            ⟨⟨⟨d ++ (List.replicate thr 0 ++ t), .eof⟩, 0, thr, .read⟩,
              false, rs, 0, w, ilz⟩ =
          ((ms, ((acc.length + u.length : Nat) : Int), none), acc ++ u,
            ⟨⟨⟨v ++ (List.replicate thr 0 ++ t), .eof⟩, 0, thr, .read⟩,
              false, rs2, 0, w + u.length, ilz⟩) ∨
        (v = [] ∧
          rcReadLoop cap acc
              ⟨⟨⟨d ++ (List.replicate thr 0 ++ t), .eof⟩, 0, thr, .read⟩,
                false, rs, 0, w, ilz⟩ =
            ((true, ((acc.length + u.length : Nat) : Int), none), acc ++ u,
              ⟨⟨⟨t, .eof⟩, 0, thr, .read⟩, false, rs2, thr, w + u.length, ilz⟩))) := by
  have htE : t.isEmpty = false := by
    cases t
    · exact absurd rfl ht
    · rfl
  intro cap
  induction cap with
  | zero =>
    intro d acc rs w ilz hd
    refine ⟨[], d, rs, false, by simp, Or.inl ?_⟩
    rw [rcReadLoop]
    simp
  | succ cap ih =>
    intro d acc rs w ilz hd
    cases d with
    | nil =>
      have hr : hfReadByte (⟨⟨[] ++ (List.replicate thr 0 ++ t), .eof⟩, 0, thr,
          .read⟩ : HolesFinder) =
          ((thr, 0, none), ⟨⟨t, .eof⟩, 0, thr, .read⟩) := by
        rw [show ([] ++ (List.replicate thr 0 ++ t) : List Nat) =
          List.replicate thr 0 ++ t by simp]
        rw [hfReadByte_read_run thr thr t hnz hthr le_rfl]
        rw [show (if t.isEmpty then HFState.eofS else .read) = .read by simp [htE]]
      rw [rcLoopStep_hole cap acc _ thr 0 _ hr (by omega)]
      refine ⟨[], [], rs.rollZeros thr, true, rfl, Or.inr ⟨rfl, ?_⟩⟩
      simp
    | cons b d2 =>
      have hb0 : b ≠ 0 := hd b (by simp)
      have hr : hfReadByte (⟨⟨(b :: d2) ++ (List.replicate thr 0 ++ t), .eof⟩, 0, thr,
          .read⟩ : HolesFinder) =
          ((0, b, none),
            ⟨⟨d2 ++ (List.replicate thr 0 ++ t), .eof⟩, 0, thr, .read⟩) :=
        hfStep_read_lit _ b (d2 ++ (List.replicate thr 0 ++ t)) rfl rfl (by simp) hb0
      rw [rcLoopStep_lit cap acc _ b _ hr]
      by_cases hsp : (rs.roll b).onSplitWithBits RollsumBits
      · rw [if_pos hsp]
        refine ⟨[b], d2, rs.roll b, true, rfl, Or.inl ?_⟩
        simp
      · rw [if_neg hsp]
        obtain ⟨u, v, rs2, ms, hdsplit, hres⟩ :=
          ih d2 (acc ++ [b]) (rs.roll b) (w + 1) ilz (fun x hx => hd x (by simp [hx]))
        refine ⟨b :: u, v, rs2, ms, by simp [hdsplit], ?_⟩
        rcases hres with hres | ⟨hv, hres⟩
        · left
          rw [hres]
          simp
          omega
        · right
          refine ⟨hv, ?_⟩
          rw [hres]
          simp
          omega

/-- The filling loop over a stream of nonzero bytes `d` ending at EOF:
the call delivers a prefix `u` of `d` and either stops within `d` with
the reader still open, or reaches the end of the stream (closing the
reader), reporting `io.EOF` only when nothing at all was delivered. -/
theorem rcLoopC (thr : Nat) :
    ∀ (cap : Nat) (d acc : List Nat) (rs : RollSum) (w : Nat) (ilz : Bool),
      (∀ b ∈ d, b ≠ 0) →
      ∃ u v rs2 ms, d = u ++ v ∧
        (rcReadLoop cap acc ⟨⟨⟨d, .eof⟩, 0, thr, .read⟩, false, rs, 0, w, ilz⟩ =
          ((ms, ((acc.length + u.length : Nat) : Int), none), acc ++ u,
            ⟨⟨⟨v, .eof⟩, 0, thr, .read⟩, false, rs2, 0, w + u.length, ilz⟩) ∨
        (v = [] ∧ acc ++ u ≠ [] ∧
          rcReadLoop cap acc ⟨⟨⟨d, .eof⟩, 0, thr, .read⟩, false, rs, 0, w, ilz⟩ =
            ((false, ((acc.length + u.length : Nat) : Int), none), acc ++ u,
              ⟨⟨⟨[], .eof⟩, 0, thr, .read⟩, true, rs2, 0, w + u.length, ilz⟩)) ∨
        (v = [] ∧ acc = [] ∧ u = [] ∧
          rcReadLoop cap acc ⟨⟨⟨d, .eof⟩, 0, thr, .read⟩, false, rs, 0, w, ilz⟩ =
            ((false, 0, some IOErr.eof), [],
              ⟨⟨⟨[], .eof⟩, 0, thr, .read⟩, true, rs2, 0, w, ilz⟩))) := by
  intro cap
  induction cap with
  | zero =>
    intro d acc rs w ilz hd
    refine ⟨[], d, rs, false, by simp, Or.inl ?_⟩
    rw [rcReadLoop]
    simp
  | succ cap ih =>
    intro d acc rs w ilz hd
    cases d with
    | nil =>
      have hr : hfReadByte (⟨⟨([] : List Nat), .eof⟩, 0, thr, .read⟩ : HolesFinder) =
          ((0, 0, some IOErr.eof), ⟨⟨([] : List Nat), .eof⟩, 0, thr, .read⟩) :=
        hfStep_read_srcEnd _ rfl rfl rfl
      by_cases hacc : acc.length = 0
      · rw [rcLoopStep_eofFirst cap acc _ 0 0 _ hr hacc]
        refine ⟨[], [], rs, false, rfl, Or.inr (Or.inr ⟨rfl,
          List.length_eq_zero.mp hacc, rfl, ?_⟩)⟩
        rw [List.length_eq_zero.mp hacc]
      · rw [rcLoopStep_eofLater cap acc _ 0 0 _ hr hacc]
        refine ⟨[], [], rs, false, rfl, Or.inr (Or.inl ⟨rfl, by simpa using hacc, ?_⟩)⟩
        simp
    | cons b d2 =>
      have hb0 : b ≠ 0 := hd b (by simp)
      have hr : hfReadByte (⟨⟨b :: d2, .eof⟩, 0, thr, .read⟩ : HolesFinder) =
          ((0, b, none), ⟨⟨d2, .eof⟩, 0, thr, .read⟩) :=
        hfStep_read_lit _ b d2 rfl rfl rfl hb0
      rw [rcLoopStep_lit cap acc _ b _ hr]
      by_cases hsp : (rs.roll b).onSplitWithBits RollsumBits
      · rw [if_pos hsp]
        refine ⟨[b], d2, rs.roll b, true, rfl, Or.inl ?_⟩
        simp
      · rw [if_neg hsp]
        obtain ⟨u, v, rs2, ms, hdsplit, hres⟩ :=
          ih d2 (acc ++ [b]) (rs.roll b) (w + 1) ilz (fun x hx => hd x (by simp [hx]))
        refine ⟨b :: u, v, rs2, ms, by simp [hdsplit], ?_⟩
        rcases hres with hres | ⟨hv, hne, hres⟩ | ⟨hv, habs, _, _⟩
        · left
          rw [hres]
          simp
          omega
        · right
          left
          refine ⟨hv, by simp, ?_⟩
          rw [hres]
          simp
          omega
        · simp at habs

/-- Every chunk in the list is a data chunk. -/
def allData (cs : List Chunk) : Prop := ∀ c ∈ cs, c.chunkType = CType.data

theorem allData_append (xs ys : List Chunk) (hx : allData xs) (hy : allData ys) :
    allData (xs ++ ys) := by
  intro c hc
  rcases List.mem_append.mp hc with h | h
  · exact hx c h
  · exact hy c h

theorem allData_map_type : ∀ cs : List Chunk, allData cs →
    cs.map Chunk.chunkType = List.replicate cs.length CType.data
  | [], _ => rfl
  | c :: cs, h => by
    rw [List.map_cons, h c (by simp),
      allData_map_type cs (fun x hx => h x (by simp [hx]))]
    simp [List.replicate_succ]

/-- The chunk list consists of data chunks, one zeros chunk of exactly the
hole threshold starting at `d1len`, and data chunks again. -/
def ChunksShape (d1len : Nat) (cs : List Chunk) : Prop :=
  ∃ ca zc cc, cs = ca ++ zc :: cc ∧ allData ca ∧ allData cc ∧
    zc.chunkType = CType.zeros ∧ zc.chunkOffset = d1len ∧ zc.chunkSize = 1024

theorem partitions_append : ∀ (s : Nat) (xs ys : List Chunk) (n : Nat),
    partitions s (xs ++ ys) n → ∃ m, partitions s xs m ∧ partitions m ys n
  | s, [], ys, n, h => ⟨s, rfl, h⟩
  | s, x :: xs, ys, n, h => by
    obtain ⟨h1, h2, h3⟩ := h
    obtain ⟨m, hm1, hm2⟩ := partitions_append _ xs ys n h3
    exact ⟨m, ⟨h1, h2, hm1⟩, hm2⟩

theorem WFrc_open (bs : List Nat) (thr : Nat) (rs : RollSum) (ph w : Nat) (ilz : Bool) :
    WFrc ⟨⟨⟨bs, .eof⟩, 0, thr, .read⟩, false, rs, ph, w, ilz⟩ := by
  refine ⟨⟨rfl, ?_, ?_⟩, ?_⟩
  · intro h
    simp at h
  · intro h
    simp at h
  · intro h
    simp at h

theorem WFrc_closedEnd (thr : Nat) (rs : RollSum) (ph w : Nat) (ilz : Bool) :
    WFrc ⟨⟨⟨[], .eof⟩, 0, thr, .read⟩, true, rs, ph, w, ilz⟩ := by
  refine ⟨⟨rfl, ?_, ?_⟩, fun _ => rfl⟩
  · intro h
    rfl
  · intro h
    simp at h

theorem headNonzero_of_all (l : List Nat) (h : ∀ b ∈ l, b ≠ 0) : headNonzero l := by
  cases l with
  | nil => trivial
  | cons b l2 => exact h b (by simp)

/-- Loop invariant for an entry whose payload is
`d1 ++ 0^1024 ++ d2` (`d1`, `d2` nonzero-byte runs): the chunk records
tile `[0, lastChunkOffset)` and the run is in one of four phases —
reading `d1`, hole pending, reading `d2`, or stream closed. -/
def Inv6 (d1 d2 : List Nat) (st : EntryLoop) : Prop :=
  partitions 0 st.chunks st.lastChunkOffset ∧
  ((∃ d1rest rs ilz w,
      st.rc = ⟨⟨⟨d1rest ++ (List.replicate 1024 0 ++ d2), .eof⟩, 0, 1024, .read⟩,
        false, rs, 0, w, ilz⟩ ∧
      (∀ b ∈ d1rest, b ≠ 0) ∧ w + d1rest.length = d1.length ∧
      allData st.chunks ∧ st.lastChunkOffset ≤ w ∧
      (st.startOffset = 0 → w = 0 ∧ st.chunks = [] ∧ st.lastChunkOffset = 0)) ∨
   (∃ rs ilz,
      st.rc = ⟨⟨⟨d2, .eof⟩, 0, 1024, .read⟩, false, rs, 1024, d1.length, ilz⟩ ∧
      allData st.chunks ∧ st.lastChunkOffset = d1.length ∧ 0 < st.startOffset) ∨
   (∃ d2rest rs ilz w,
      st.rc = ⟨⟨⟨d2rest, .eof⟩, 0, 1024, .read⟩, false, rs, 0, w, ilz⟩ ∧
      (∀ b ∈ d2rest, b ≠ 0) ∧ w + d2rest.length = d1.length + 1024 + d2.length ∧
      ChunksShape d1.length st.chunks ∧ st.lastChunkOffset ≤ w ∧
      0 < st.startOffset) ∨
   (∃ rs ilz,
      st.rc = ⟨⟨⟨[], .eof⟩, 0, 1024, .read⟩, true, rs, 0,
        d1.length + 1024 + d2.length, ilz⟩ ∧
      ChunksShape d1.length st.chunks ∧
      st.lastChunkOffset < d1.length + 1024 + d2.length ∧ 0 < st.startOffset))

/-- The payload loop on a `d1 ++ 0^1024 ++ d2` payload terminates in a
`done` outcome whose chunks have the data/zeros/data shape and tile the
whole payload. -/
theorem c6_main (offs : Nat → Nat) (hoff : ∀ j, 0 < offs j) (d1 d2 : List Nat)
    (hd1 : d1 ≠ []) (hd2 : d2 ≠ []) (hnz2 : ∀ b ∈ d2, b ≠ 0) :
    ∀ (fuel : Nat) (st : EntryLoop), Inv6 d1 d2 st → Mrc st.rc < fuel →
      ∃ st2 cks, entryLoop offs fuel st = some (.done st2 cks) ∧
        ChunksShape d1.length st2.chunks ∧
        partitions 0 st2.chunks (d1.length + 1024 + d2.length) := by
  have hh2 : headNonzero d2 := headNonzero_of_all d2 hnz2
  intro fuel
  induction fuel with
  | zero =>
    intro st _ hm
    omega
  | succ fuel ih =>
    intro st hinv hm
    obtain ⟨hpart, hphase⟩ := hinv
    rw [entryLoop]
    rcases hphase with ⟨d1r, rs, ilz, w, hrc, hnzd, hlen, hdata, hlco, hzero⟩ |
      ⟨rs, ilz, hrc, hdata, hlco, hso⟩ |
      ⟨d2r, rs, ilz, w, hrc, hnzd, hlen, hshape, hlco, hso⟩ |
      ⟨rs, ilz, hrc, hshape, hlco, hso⟩
    · -- phase A: reading d1
      have hwrc : WFrc st.rc := by
        rw [hrc]
        exact WFrc_open _ _ _ _ _ _
      obtain ⟨_, _, _, _, hnone2, _⟩ := rcRead_spec st.rc bufSize (by decide) hwrc
      obtain ⟨u, v, rs2, ms, hdsplit, hres⟩ :=
        rcLoopA 1024 d2 (by omega) hd2 hh2 bufSize d1r [] rs w false hnzd
      have hcall0 : rcRead st.rc bufSize =
          rcReadLoop bufSize []
            ⟨⟨⟨d1r ++ (List.replicate 1024 0 ++ d2), .eof⟩, 0, 1024, .read⟩,
              false, rs, 0, w, false⟩ := by
        rw [hrc]
        exact rcRead_open _ _ rfl rfl
      rcases hres with hres | ⟨hv, hres⟩
      · -- A1: the call stays within d1
        have hcall := hcall0.trans hres
        have hE : (rcRead st.rc bufSize).1.2.2 = none := by rw [hcall]
        have hrc2 : (rcRead st.rc bufSize).2.2 =
            ⟨⟨⟨v ++ (List.replicate 1024 0 ++ d2), .eof⟩, 0, 1024, .read⟩,
              false, rs2, 0, w + u.length, false⟩ := by rw [hcall]
        have hilz2 : (rcRead st.rc bufSize).2.2.isLastChunkZeros = false := by
          rw [hrc2]
        have hcnt : (rcRead st.rc bufSize).1.2.1 = ((u.length : Nat) : Int) := by
          rw [hcall]
          simp
        have hdlen : d1r.length = u.length + v.length := by
          rw [hdsplit]
          simp
        rw [entryIter_none offs st hE]
        obtain ⟨st2, h2rc, h2ck, h2lo, h2so, h2pd, h2cd, h2ev, hstep⟩ :=
          entryStep_core offs st (rcRead st.rc bufSize)
        rw [hstep]
        by_cases hg : ((rcRead st.rc bufSize).1.1 = true ∨
            (rcRead st.rc bufSize).1.2.2 = some IOErr.eof) ∧ 0 < st2.startOffset
        · rw [if_pos hg]
          rw [show (if st2.rc.isLastChunkZeros = true then CType.zeros else CType.data)
            = CType.data from by rw [h2rc, hilz2]; simp]
          rw [h2ck, h2lo, h2rc, hrc2]
          dsimp only
          refine ih _ ⟨?_, Or.inl ⟨v, rs2, false, w + u.length, rfl, ?_, ?_, ?_, ?_, ?_⟩⟩ ?_
          · by_cases hsz : 0 < w + u.length - st.lastChunkOffset
            · rw [if_pos hsz]
              have hp2 := partitions_snoc 0 st.lastChunkOffset st.chunks
                ⟨st.lastChunkOffset, st2.lastOffset, st2.chunkDigester,
                  w + u.length - st.lastChunkOffset, CType.data⟩ hpart rfl hsz
              rwa [show st.lastChunkOffset + (w + u.length - st.lastChunkOffset)
                = w + u.length from by omega] at hp2
            · rw [if_neg hsz]
              rwa [show w + u.length = st.lastChunkOffset from by omega]
          · intro b hb
            exact hnzd b (by rw [hdsplit]; exact List.mem_append.mpr (Or.inr hb))
          · omega
          · by_cases hsz : 0 < w + u.length - st.lastChunkOffset
            · rw [if_pos hsz]
              refine allData_append _ _ hdata ?_
              intro c hc
              simp at hc
              rw [hc]
            · rw [if_neg hsz]
              exact hdata
          · exact le_rfl
          · intro h0
            dsimp only at h0
            omega
          · show Mrc (⟨⟨⟨v ++ (List.replicate 1024 0 ++ d2), .eof⟩, 0, 1024, .read⟩,
              false, rs2, 0, w + u.length, false⟩ : rollingChecksumReader) < fuel
            have hmd := (hnone2 hE).2
            rw [hrc2] at hmd
            omega
        · rw [if_neg hg]
          refine ih st2 ⟨?_, Or.inl ⟨v, rs2, false, w + u.length, ?_, ?_, ?_, ?_, ?_, ?_⟩⟩ ?_
          · rw [h2ck, h2lo]
            exact hpart
          · rw [h2rc]
            exact hrc2
          · intro b hb
            exact hnzd b (by rw [hdsplit]; exact List.mem_append.mpr (Or.inr hb))
          · omega
          · rw [h2ck]
            exact hdata
          · rw [h2lo]
            omega
          · intro h0
            rw [h2so] at h0
            by_cases hc : 0 < (rcRead st.rc bufSize).1.2.1
            · by_cases hs0 : st.startOffset = 0
              · rw [if_pos ⟨hc, hs0⟩] at h0
                exact absurd h0 (by have := hoff st.k; omega)
              · rw [if_neg (by tauto)] at h0
                exact absurd h0 hs0
            · rw [if_neg (by tauto)] at h0
              obtain ⟨hw0, hck0, hlo0⟩ := hzero h0
              have hu0 : u.length = 0 := by
                rw [hcnt] at hc
                omega
              refine ⟨by omega, by rw [h2ck]; exact hck0, by rw [h2lo]; exact hlo0⟩
          · rw [h2rc]
            have hmd := (hnone2 hE).2
            omega
      · -- A2: the call discovers the hole
        have hcall := hcall0.trans hres
        have hE : (rcRead st.rc bufSize).1.2.2 = none := by rw [hcall]
        have hms : (rcRead st.rc bufSize).1.1 = true := by rw [hcall]
        have hrc2 : (rcRead st.rc bufSize).2.2 =
            ⟨⟨⟨d2, .eof⟩, 0, 1024, .read⟩, false, rs2, 1024, w + u.length, false⟩ := by
          rw [hcall]
        have hilz2 : (rcRead st.rc bufSize).2.2.isLastChunkZeros = false := by
          rw [hrc2]
        have hcnt : (rcRead st.rc bufSize).1.2.1 = ((u.length : Nat) : Int) := by
          rw [hcall]
          simp
        have hdlen : d1r.length = u.length := by
          rw [hdsplit, hv]
          simp
        have hwlen : w + u.length = d1.length := by omega
        rw [entryIter_none offs st hE]
        obtain ⟨st2, h2rc, h2ck, h2lo, h2so, h2pd, h2cd, h2ev, hstep⟩ :=
          entryStep_core offs st (rcRead st.rc bufSize)
        have hso2 : 0 < st2.startOffset := by
          rw [h2so]
          by_cases hs0 : st.startOffset = 0
          · obtain ⟨hw0, _, _⟩ := hzero hs0
            have hd1pos : 0 < d1.length := List.length_pos.mpr hd1
            have hupos : 0 < u.length := by omega
            rw [if_pos ⟨by rw [hcnt]; exact_mod_cast hupos, hs0⟩]
            exact hoff st.k
          · rw [if_neg (by tauto)]
            omega
        rw [hstep, if_pos ⟨Or.inl hms, hso2⟩]
        rw [show (if st2.rc.isLastChunkZeros = true then CType.zeros else CType.data)
          = CType.data from by rw [h2rc, hilz2]; simp]
        rw [h2ck, h2lo, h2rc, hrc2]
        dsimp only
        rw [show w + u.length = d1.length from hwlen]
        refine ih _ ⟨?_, Or.inr (Or.inl ⟨rs2, false, rfl, ?_, rfl, hso2⟩)⟩ ?_
        · by_cases hsz : 0 < d1.length - st.lastChunkOffset
          · rw [if_pos hsz]
            have hp2 := partitions_snoc 0 st.lastChunkOffset st.chunks
              ⟨st.lastChunkOffset, st2.lastOffset, st2.chunkDigester,
                d1.length - st.lastChunkOffset, CType.data⟩ hpart rfl hsz
            rwa [show st.lastChunkOffset + (d1.length - st.lastChunkOffset)
              = d1.length from by omega] at hp2
          · rw [if_neg hsz]
            rwa [show d1.length = st.lastChunkOffset from by omega]
        · by_cases hsz : 0 < d1.length - st.lastChunkOffset
          · rw [if_pos hsz]
            refine allData_append _ _ hdata ?_
            intro c hc
            simp at hc
            rw [hc]
          · rw [if_neg hsz]
            exact hdata
        · show Mrc (⟨⟨⟨d2, .eof⟩, 0, 1024, .read⟩,
            false, rs2, 1024, d1.length, false⟩ : rollingChecksumReader) < fuel
          have hmd := (hnone2 hE).2
          rw [hrc2, hwlen] at hmd
          omega
    · -- phase B: hole pending
      have hwrc : WFrc st.rc := by
        rw [hrc]
        exact WFrc_open _ _ _ _ _ _
      obtain ⟨_, _, _, _, hnone2, _⟩ := rcRead_spec st.rc bufSize (by decide) hwrc
      have hcall : rcRead st.rc bufSize =
          ((true, ((1024 : Nat) : Int), none), List.replicate 1024 0,
            ⟨⟨⟨d2, .eof⟩, 0, 1024, .read⟩, false, rs, 0, d1.length + 1024, true⟩) := by
        rw [hrc]
        exact rcRead_drain ⟨⟨d2, .eof⟩, 0, 1024, .read⟩ rs d1.length bufSize 1024 ilz
          (by omega) (by decide)
      have hE : (rcRead st.rc bufSize).1.2.2 = none := by rw [hcall]
      have hms : (rcRead st.rc bufSize).1.1 = true := by rw [hcall]
      have hrc2 : (rcRead st.rc bufSize).2.2 =
          ⟨⟨⟨d2, .eof⟩, 0, 1024, .read⟩, false, rs, 0, d1.length + 1024, true⟩ := by
        rw [hcall]
      have hilz2 : (rcRead st.rc bufSize).2.2.isLastChunkZeros = true := by
        rw [hrc2]
      rw [hlco] at hpart
      rw [entryIter_none offs st hE]
      obtain ⟨st2, h2rc, h2ck, h2lo, h2so, h2pd, h2cd, h2ev, hstep⟩ :=
        entryStep_core offs st (rcRead st.rc bufSize)
      have hso2 : 0 < st2.startOffset := by
        rw [h2so, if_neg (fun hh => by omega)]
        exact hso
      rw [hstep, if_pos ⟨Or.inl hms, hso2⟩]
      rw [show (if st2.rc.isLastChunkZeros = true then CType.zeros else CType.data)
        = CType.zeros from by rw [h2rc, hilz2]; simp]
      rw [h2ck, h2lo, h2rc, hrc2, hlco]
      dsimp only
      rw [show d1.length + 1024 - d1.length = 1024 from by omega]
      rw [if_pos (show 0 < 1024 by omega)]
      refine ih _ ⟨?_, Or.inr (Or.inr (Or.inl
        ⟨d2, rs, true, d1.length + 1024, rfl, hnz2, by omega, ?_, le_rfl, hso2⟩))⟩ ?_
      · exact partitions_snoc 0 d1.length st.chunks
          ⟨d1.length, st2.lastOffset, st2.chunkDigester, 1024, CType.zeros⟩
          hpart rfl (by simp)
      · exact ⟨st.chunks, ⟨d1.length, st2.lastOffset, st2.chunkDigester, 1024,
          CType.zeros⟩, [], rfl, hdata, fun c hc => by simp at hc, rfl, rfl, rfl⟩
      · show Mrc (⟨⟨⟨d2, .eof⟩, 0, 1024, .read⟩,
          false, rs, 0, d1.length + 1024, true⟩ : rollingChecksumReader) < fuel
        have hmd := (hnone2 hE).2
        rw [hrc2] at hmd
        omega
    · -- phase C: reading d2
      have hwrc : WFrc st.rc := by
        rw [hrc]
        exact WFrc_open _ _ _ _ _ _
      obtain ⟨_, _, _, _, hnone2, _⟩ := rcRead_spec st.rc bufSize (by decide) hwrc
      obtain ⟨u, v, rs2, ms, hdsplit, hres⟩ :=
        rcLoopC 1024 bufSize d2r [] rs w false hnzd
      obtain ⟨ca, zc, cc, hceq, hda, hdc, hzt, hzo, hzs⟩ := hshape
      have hcall0 : rcRead st.rc bufSize =
          rcReadLoop bufSize []
            ⟨⟨⟨d2r, .eof⟩, 0, 1024, .read⟩, false, rs, 0, w, false⟩ := by
        rw [hrc]
        exact rcRead_open _ _ rfl rfl
      rcases hres with hres | ⟨hv, hne, hres⟩ | ⟨hv, _, hu, hres⟩
      · -- C1: the call stays within d2
        have hcall := hcall0.trans hres
        have hE : (rcRead st.rc bufSize).1.2.2 = none := by rw [hcall]
        have hrc2 : (rcRead st.rc bufSize).2.2 =
            ⟨⟨⟨v, .eof⟩, 0, 1024, .read⟩, false, rs2, 0, w + u.length, false⟩ := by
          rw [hcall]
        have hilz2 : (rcRead st.rc bufSize).2.2.isLastChunkZeros = false := by
          rw [hrc2]
        have hdlen : d2r.length = u.length + v.length := by
          rw [hdsplit]
          simp
        rw [entryIter_none offs st hE]
        obtain ⟨st2, h2rc, h2ck, h2lo, h2so, h2pd, h2cd, h2ev, hstep⟩ :=
          entryStep_core offs st (rcRead st.rc bufSize)
        have hso2 : 0 < st2.startOffset := by
          rw [h2so, if_neg (fun hh => by omega)]
          exact hso
        rw [hstep]
        by_cases hg : ((rcRead st.rc bufSize).1.1 = true ∨
            (rcRead st.rc bufSize).1.2.2 = some IOErr.eof) ∧ 0 < st2.startOffset
        · rw [if_pos hg]
          rw [show (if st2.rc.isLastChunkZeros = true then CType.zeros else CType.data)
            = CType.data from by rw [h2rc, hilz2]; simp]
          rw [h2ck, h2lo, h2rc, hrc2]
          dsimp only
          refine ih _ ⟨?_, Or.inr (Or.inr (Or.inl
            ⟨v, rs2, false, w + u.length, rfl, ?_, ?_, ?_, le_rfl, hso2⟩))⟩ ?_
          · by_cases hsz : 0 < w + u.length - st.lastChunkOffset
            · rw [if_pos hsz]
              have hp2 := partitions_snoc 0 st.lastChunkOffset st.chunks
                ⟨st.lastChunkOffset, st2.lastOffset, st2.chunkDigester,
                  w + u.length - st.lastChunkOffset, CType.data⟩ hpart rfl hsz
              rwa [show st.lastChunkOffset + (w + u.length - st.lastChunkOffset)
                = w + u.length from by omega] at hp2
            · rw [if_neg hsz]
              rwa [show w + u.length = st.lastChunkOffset from by omega]
          · intro b hb
            exact hnzd b (by rw [hdsplit]; exact List.mem_append.mpr (Or.inr hb))
          · omega
          · by_cases hsz : 0 < w + u.length - st.lastChunkOffset
            · rw [if_pos hsz]
              exact ⟨ca, zc, cc ++ [⟨st.lastChunkOffset, st2.lastOffset,
                st2.chunkDigester, w + u.length - st.lastChunkOffset, CType.data⟩],
                by rw [hceq]; simp,
                hda, allData_append _ _ hdc (fun c hc => by simp at hc; rw [hc]),
                hzt, hzo, hzs⟩
            · rw [if_neg hsz]
              exact ⟨ca, zc, cc, hceq, hda, hdc, hzt, hzo, hzs⟩
          · show Mrc (⟨⟨⟨v, .eof⟩, 0, 1024, .read⟩,
              false, rs2, 0, w + u.length, false⟩ : rollingChecksumReader) < fuel
            have hmd := (hnone2 hE).2
            rw [hrc2] at hmd
            omega
        · rw [if_neg hg]
          refine ih st2 ⟨?_, Or.inr (Or.inr (Or.inl
            ⟨v, rs2, false, w + u.length, ?_, ?_, ?_, ?_, ?_, hso2⟩))⟩ ?_
          · rw [h2ck, h2lo]
            exact hpart
          · rw [h2rc]
            exact hrc2
          · intro b hb
            exact hnzd b (by rw [hdsplit]; exact List.mem_append.mpr (Or.inr hb))
          · omega
          · rw [h2ck]
            exact ⟨ca, zc, cc, hceq, hda, hdc, hzt, hzo, hzs⟩
          · rw [h2lo]
            omega
          · rw [h2rc]
            have hmd := (hnone2 hE).2
            omega
      · -- C2: the stream end is reached with bytes delivered
        have hcall := hcall0.trans hres
        have hE : (rcRead st.rc bufSize).1.2.2 = none := by rw [hcall]
        have hms : (rcRead st.rc bufSize).1.1 = false := by rw [hcall]
        have hrc2 : (rcRead st.rc bufSize).2.2 =
            ⟨⟨⟨[], .eof⟩, 0, 1024, .read⟩, true, rs2, 0, w + u.length, false⟩ := by
          rw [hcall]
        have hune : u ≠ [] := by simpa using hne
        have hulen : 0 < u.length := List.length_pos.mpr hune
        have hdlen : d2r.length = u.length := by
          rw [hdsplit, hv]
          simp
        rw [entryIter_none offs st hE]
        obtain ⟨st2, h2rc, h2ck, h2lo, h2so, h2pd, h2cd, h2ev, hstep⟩ :=
          entryStep_core offs st (rcRead st.rc bufSize)
        have hso2 : 0 < st2.startOffset := by
          rw [h2so, if_neg (fun hh => by omega)]
          exact hso
        have hg : ¬ (((rcRead st.rc bufSize).1.1 = true ∨
            (rcRead st.rc bufSize).1.2.2 = some IOErr.eof) ∧ 0 < st2.startOffset) := by
          intro hh
          rcases hh.1 with h | h
          · rw [hms] at h
            simp at h
          · rw [hE] at h
            simp at h
        rw [hstep, if_neg hg]
        refine ih st2 ⟨?_, Or.inr (Or.inr (Or.inr ⟨rs2, false, ?_, ?_, ?_, hso2⟩))⟩ ?_
        · rw [h2ck, h2lo]
          exact hpart
        · rw [h2rc, hrc2, show w + u.length = d1.length + 1024 + d2.length from
            by omega]
        · rw [h2ck]
          exact ⟨ca, zc, cc, hceq, hda, hdc, hzt, hzo, hzs⟩
        · rw [h2lo]
          omega
        · rw [h2rc]
          have hmd := (hnone2 hE).2
          omega
      · -- C3: the stream end is reached with nothing delivered
        have hcall := hcall0.trans hres
        have hE : (rcRead st.rc bufSize).1.2.2 = some IOErr.eof := by rw [hcall]
        have hcnt : (rcRead st.rc bufSize).1.2.1 = 0 := by rw [hcall]
        have hrc2 : (rcRead st.rc bufSize).2.2 =
            ⟨⟨⟨[], .eof⟩, 0, 1024, .read⟩, true, rs2, 0, w, false⟩ := by
          rw [hcall]
        have hilz2 : (rcRead st.rc bufSize).2.2.isLastChunkZeros = false := by
          rw [hrc2]
        have hdr0 : d2r = [] := by
          rw [hdsplit, hu, hv]
          rfl
        have hw : w = d1.length + 1024 + d2.length := by
          rw [hdr0] at hlen
          simpa using hlen
        rw [entryIter_eof offs st hE]
        obtain ⟨st2, h2rc, h2ck, h2lo, h2so, h2pd, h2cd, h2ev, hstep⟩ :=
          entryStep_core offs st (rcRead st.rc bufSize)
        have hso2 : 0 < st2.startOffset := by
          rw [h2so, if_neg (fun hh => by rw [hcnt] at hh; omega)]
          exact hso
        have hg : ((rcRead st.rc bufSize).1.1 = true ∨
            (rcRead st.rc bufSize).1.2.2 = some IOErr.eof) ∧ 0 < st2.startOffset :=
          ⟨Or.inr hE, hso2⟩
        refine ⟨_, _, rfl, ?_, ?_⟩
        · rw [hstep, if_pos hg]
          rw [show (if st2.rc.isLastChunkZeros = true then CType.zeros else CType.data)
            = CType.data from by rw [h2rc, hilz2]; simp]
          rw [h2ck, h2lo, h2rc, hrc2]
          dsimp only
          by_cases hsz : 0 < w - st.lastChunkOffset
          · rw [if_pos hsz]
            exact ⟨ca, zc, cc ++ [⟨st.lastChunkOffset, st2.lastOffset,
              st2.chunkDigester, w - st.lastChunkOffset, CType.data⟩],
              by rw [hceq]; simp,
              hda, allData_append _ _ hdc (fun c hc => by simp at hc; rw [hc]),
              hzt, hzo, hzs⟩
          · rw [if_neg hsz]
            exact ⟨ca, zc, cc, hceq, hda, hdc, hzt, hzo, hzs⟩
        · rw [hstep, if_pos hg]
          rw [show (if st2.rc.isLastChunkZeros = true then CType.zeros else CType.data)
            = CType.data from by rw [h2rc, hilz2]; simp]
          rw [h2ck, h2lo, h2rc, hrc2]
          dsimp only
          by_cases hsz : 0 < w - st.lastChunkOffset
          · rw [if_pos hsz]
            have hp2 := partitions_snoc 0 st.lastChunkOffset st.chunks
              ⟨st.lastChunkOffset, st2.lastOffset, st2.chunkDigester,
                w - st.lastChunkOffset, CType.data⟩ hpart rfl hsz
            rw [show st.lastChunkOffset + (w - st.lastChunkOffset) = w from
              by omega] at hp2
            rwa [← hw]
          · rw [if_neg hsz]
            rw [← hw, show w = st.lastChunkOffset from by omega]
            exact hpart
    · -- phase D: stream closed, final flush
      obtain ⟨ca, zc, cc, hceq, hda, hdc, hzt, hzo, hzs⟩ := hshape
      have hcall : rcRead st.rc bufSize =
          ((false, 0, some IOErr.eof), [],
            ⟨⟨⟨[], .eof⟩, 0, 1024, .read⟩, true, rs, 0,
              d1.length + 1024 + d2.length, false⟩) := by
        rw [hrc, rcRead]
        simp
      have hE : (rcRead st.rc bufSize).1.2.2 = some IOErr.eof := by rw [hcall]
      have hcnt : (rcRead st.rc bufSize).1.2.1 = 0 := by rw [hcall]
      have hrc2 : (rcRead st.rc bufSize).2.2 =
          ⟨⟨⟨[], .eof⟩, 0, 1024, .read⟩, true, rs, 0,
            d1.length + 1024 + d2.length, false⟩ := by
        rw [hcall]
      have hilz2 : (rcRead st.rc bufSize).2.2.isLastChunkZeros = false := by
        rw [hrc2]
      rw [entryIter_eof offs st hE]
      obtain ⟨st2, h2rc, h2ck, h2lo, h2so, h2pd, h2cd, h2ev, hstep⟩ :=
        entryStep_core offs st (rcRead st.rc bufSize)
      have hso2 : 0 < st2.startOffset := by
        rw [h2so, if_neg (fun hh => by rw [hcnt] at hh; omega)]
        exact hso
      have hg : ((rcRead st.rc bufSize).1.1 = true ∨
          (rcRead st.rc bufSize).1.2.2 = some IOErr.eof) ∧ 0 < st2.startOffset :=
        ⟨Or.inr hE, hso2⟩
      refine ⟨_, _, rfl, ?_, ?_⟩
      · rw [hstep, if_pos hg]
        rw [show (if st2.rc.isLastChunkZeros = true then CType.zeros else CType.data)
          = CType.data from by rw [h2rc, hilz2]; simp]
        rw [h2ck, h2lo, h2rc, hrc2]
        dsimp only
        rw [if_pos (show 0 < d1.length + 1024 + d2.length - st.lastChunkOffset from
          by omega)]
        exact ⟨ca, zc, cc ++ [⟨st.lastChunkOffset, st2.lastOffset,
          st2.chunkDigester, d1.length + 1024 + d2.length - st.lastChunkOffset,
          CType.data⟩],
          by rw [hceq]; simp,
          hda, allData_append _ _ hdc (fun c hc => by simp at hc; rw [hc]),
          hzt, hzo, hzs⟩
      · rw [hstep, if_pos hg]
        rw [show (if st2.rc.isLastChunkZeros = true then CType.zeros else CType.data)
          = CType.data from by rw [h2rc, hilz2]; simp]
        rw [h2ck, h2lo, h2rc, hrc2]
        dsimp only
        rw [if_pos (show 0 < d1.length + 1024 + d2.length - st.lastChunkOffset from
          by omega)]
        have hp2 := partitions_snoc 0 st.lastChunkOffset st.chunks
          ⟨st.lastChunkOffset, st2.lastOffset, st2.chunkDigester,
            d1.length + 1024 + d2.length - st.lastChunkOffset, CType.data⟩
          hpart rfl (by simp; omega)
        rwa [show st.lastChunkOffset +
          (d1.length + 1024 + d2.length - st.lastChunkOffset)
          = d1.length + 1024 + d2.length from by omega] at hp2

/-- C6.  For an entry whose payload is nonzero bytes, a zero run of
exactly `holesThreshold` (1024) bytes, then nonzero bytes, the
orchestrator records at least 3 chunks — data chunks, one zeros chunk of
exactly the threshold starting right after the leading data, then data
chunks — whose offsets tile the payload with no gap. -/
theorem c6_data_zeros_data (offs : Nat → Nat) (hoff : ∀ j, 0 < offs j)
    (d1 d2 : List Nat) (k : Nat) (hd1 : d1 ≠ []) (hd2 : d2 ≠ [])
    (hnz1 : ∀ b ∈ d1, b ≠ 0) (hnz2 : ∀ b ∈ d2, b ≠ 0) :
    ∃ st2 cks, processEntry offs
        ⟨d1 ++ (List.replicate holesThreshold 0 ++ d2), IOErr.eof⟩ k =
        some (.done st2 cks) ∧
      ∃ ca zc cc, st2.chunks = ca ++ zc :: cc ∧
        ca ≠ [] ∧ cc ≠ [] ∧ 3 ≤ st2.chunks.length ∧
        st2.chunks.map Chunk.chunkType =
          List.replicate ca.length CType.data ++
            CType.zeros :: List.replicate cc.length CType.data ∧
        zc.chunkOffset = d1.length ∧ zc.chunkSize = holesThreshold ∧
        zc.chunkType = CType.zeros ∧
        partitions 0 st2.chunks
          (d1 ++ (List.replicate holesThreshold 0 ++ d2)).length := by
  have hinv : Inv6 d1 d2
      (initEntry ⟨d1 ++ (List.replicate holesThreshold 0 ++ d2), IOErr.eof⟩ k) := by
    refine ⟨rfl, Or.inl ⟨d1, newRollSum, false, 0, rfl, hnz1, by omega,
      fun c hc => by simp [initEntry] at hc, le_rfl, fun _ => ⟨rfl, rfl, rfl⟩⟩⟩
  obtain ⟨st2, cks, hrun, hshape, hpartF⟩ :=
    c6_main offs hoff d1 d2 hd1 hd2 hnz2
      (entryFuel ⟨d1 ++ (List.replicate holesThreshold 0 ++ d2), IOErr.eof⟩)
      (initEntry ⟨d1 ++ (List.replicate holesThreshold 0 ++ d2), IOErr.eof⟩ k)
      hinv (initEntry_measure (d1 ++ (List.replicate holesThreshold 0 ++ d2)) k)
  obtain ⟨ca, zc, cc, hceq, hda, hdc, hzt, hzo, hzs⟩ := hshape
  have hd1pos : 0 < d1.length := List.length_pos.mpr hd1
  have hd2pos : 0 < d2.length := List.length_pos.mpr hd2
  have hpart2 := hpartF
  rw [hceq] at hpart2
  obtain ⟨m, hca, hrest⟩ :=
    partitions_append 0 ca (zc :: cc) (d1.length + 1024 + d2.length) hpart2
  have hm : m = d1.length := by
    have h1 := hrest.1
    rw [hzo] at h1
    omega
  have hcane : ca ≠ [] := by
    intro h0
    rw [h0] at hca
    have h00 : (0 : Nat) = m := hca
    omega
  have hcc2 := hrest.2.2
  rw [hm, hzs] at hcc2
  have hccne : cc ≠ [] := by
    intro h0
    rw [h0] at hcc2
    have h00 : d1.length + 1024 = d1.length + 1024 + d2.length := hcc2
    omega
  have hplen : (d1 ++ (List.replicate holesThreshold 0 ++ d2)).length =
      d1.length + 1024 + d2.length := by
    rw [List.length_append, List.length_append, List.length_replicate]
    simp only [holesThreshold]
    omega
  refine ⟨st2, cks, hrun, ca, zc, cc, hceq, hcane, hccne, ?_, ?_, hzo, hzs, hzt, ?_⟩
  · rw [hceq]
    have hca1 : 1 ≤ ca.length := List.length_pos.mpr hcane
    have hcc1 : 1 ≤ cc.length := List.length_pos.mpr hccne
    simp
    omega
  · rw [hceq, List.map_append, List.map_cons, allData_map_type ca hda,
      allData_map_type cc hdc, hzt]
  · rw [hplen]
    exact hpartF

theorem c6_data_zeros_data_witness :
    (∀ j : Nat, 0 < j + 1) ∧ ([1] : List Nat) ≠ [] ∧ ([2] : List Nat) ≠ [] ∧
    (∀ b ∈ ([1] : List Nat), b ≠ 0) ∧ (∀ b ∈ ([2] : List Nat), b ≠ 0) ∧
    (∃ st2 cks, processEntry (fun j => j + 1)
        ⟨[1] ++ (List.replicate holesThreshold 0 ++ [2]), IOErr.eof⟩ 0 =
        some (.done st2 cks) ∧
      ∃ ca zc cc, st2.chunks = ca ++ zc :: cc ∧
        ca ≠ [] ∧ cc ≠ [] ∧ 3 ≤ st2.chunks.length ∧
        st2.chunks.map Chunk.chunkType =
          List.replicate ca.length CType.data ++
            CType.zeros :: List.replicate cc.length CType.data ∧
        zc.chunkOffset = ([1] : List Nat).length ∧ zc.chunkSize = holesThreshold ∧
        zc.chunkType = CType.zeros ∧
        partitions 0 st2.chunks
          (([1] : List Nat) ++ (List.replicate holesThreshold 0 ++ [2])).length) :=
  ⟨fun j => Nat.succ_pos j, by decide, by decide, by decide, by decide,
    c6_data_zeros_data (fun j => j + 1) (fun j => Nat.succ_pos j) [1] [2] 0
      (by decide) (by decide) (by decide) (by decide)⟩

theorem listGet_congr {α : Type} {l l2 : List α} (h : l = l2) (i : Nat)
    (hi : i < l.length) :
    l.get ⟨i, hi⟩ = l2.get ⟨i, h ▸ hi⟩ := by
  subst h
  rfl

theorem zip_backfill_get : ∀ (es : List FileMetadata) (cs : List Chunk) (i : Nat)
    (hi : i < cs.length) (he : i < es.length)
    (hz : i < (List.zipWith backfill es cs).length),
    (List.zipWith backfill es cs).get ⟨i, hz⟩ =
      backfill (es.get ⟨i, he⟩) (cs.get ⟨i, hi⟩)
  | _ :: _, _ :: _, 0, _, _, _ => rfl
  | e :: es, c :: cs, i + 1, hi, he, hz =>
    zip_backfill_get es cs i (by simpa using hi) (by simpa using he)
      (by simpa using hz)
  | [], _, i, hi, he, hz => by simp at he
  | _ :: _, [], i, hi, he, hz => by simp at hi

theorem map_secondary_get (hdr : TarHeader) : ∀ (cs : List Chunk) (j : Nat)
    (hj : j < cs.length) (hm : j < (cs.map (secondaryRec hdr)).length),
    (cs.map (secondaryRec hdr)).get ⟨j, hm⟩ = secondaryRec hdr (cs.get ⟨j, hj⟩)
  | _ :: _, 0, _, _ => rfl
  | c :: cs, j + 1, hj, hm =>
    map_secondary_get hdr cs j (by simpa using hj) (by simpa using hm)
  | [], j, hj, _ => by simp at hj

/-- When the payload yields exactly one chunk, no secondary record is
created: the record list is the primary record alone. -/
theorem buildEntries_single (hdr : TarHeader) (cks : Option (List Nat))
    (so lo : Nat) (c : Chunk) :
    buildEntries hdr cks so lo [c] = [primaryRec hdr cks so lo] := rfl

/-- With more than one chunk, the `i`-th record is the `i`-th base record
(primary for `i = 0`, the `i`-th chunk's `TypeChunk` record otherwise)
with the `i`-th chunk's size, offset, digest and type backfilled. -/
theorem buildEntries_backfill_fields (hdr : TarHeader) (cks : Option (List Nat))
    (so lo : Nat) (chunks : List Chunk) (h1 : 1 < chunks.length)
    (i : Nat) (hi : i < chunks.length)
    (hi2 : i < (buildEntries hdr cks so lo chunks).length) :
    ((buildEntries hdr cks so lo chunks).get ⟨i, hi2⟩).chunkSize =
        (chunks.get ⟨i, hi⟩).chunkSize ∧
    ((buildEntries hdr cks so lo chunks).get ⟨i, hi2⟩).offset =
        (chunks.get ⟨i, hi⟩).offset ∧
    ((buildEntries hdr cks so lo chunks).get ⟨i, hi2⟩).chunkDigest =
        some (chunks.get ⟨i, hi⟩).checksum ∧
    ((buildEntries hdr cks so lo chunks).get ⟨i, hi2⟩).chunkType =
        some (chunks.get ⟨i, hi⟩).chunkType ∧
    (0 < i → ((buildEntries hdr cks so lo chunks).get ⟨i, hi2⟩).ftype =
        EntryType.chunkT ∧
      ((buildEntries hdr cks so lo chunks).get ⟨i, hi2⟩).chunkOffset =
        (chunks.get ⟨i, hi⟩).chunkOffset) := by
  cases chunks with
  | nil => simp at hi
  | cons c0 crest =>
    have hBE : buildEntries hdr cks so lo (c0 :: crest) =
        List.zipWith backfill
          (primaryRec hdr cks so lo :: crest.map (secondaryRec hdr))
          (c0 :: crest) := by
      rw [buildEntries]
      rw [if_pos h1]
      rfl
    have he : i < (primaryRec hdr cks so lo ::
        crest.map (secondaryRec hdr)).length := by
      simp at hi ⊢
      omega
    have hg := listGet_congr hBE i hi2
    rw [hg, zip_backfill_get _ _ i hi he (hBE ▸ hi2)]
    refine ⟨rfl, rfl, rfl, rfl, ?_⟩
    intro hipos
    obtain ⟨j, rfl⟩ : ∃ j, i = j + 1 := ⟨i - 1, by omega⟩
    have hj : j < crest.length := by
      simp at hi
      omega
    have hsec : (primaryRec hdr cks so lo ::
        crest.map (secondaryRec hdr)).get ⟨j + 1, he⟩ =
        secondaryRec hdr (crest.get ⟨j, hj⟩) := by
      show (crest.map (secondaryRec hdr)).get ⟨j, _⟩ = _
      exact map_secondary_get hdr crest j hj _
    rw [hsec]
    exact ⟨rfl, rfl⟩

/-- C7.  With more than one chunk, each chunk after the first becomes a
secondary `TypeChunk` record carrying its `ChunkOffset`, and every
chunk-derived record — the primary included — is backfilled with its
chunk's `ChunkSize`, compressed `Offset`, `ChunkDigest` and `ChunkType`;
with exactly one chunk no secondary record is created and the record list
is the primary record alone. -/
theorem c7_backfill_merge (offs : Nat → Nat) (hoff : ∀ j, 0 < offs j)
    (hdr : TarHeader) (p : List Nat) (k : Nat) :
    ∃ st2 cks, processEntry offs ⟨p, IOErr.eof⟩ k = some (.done st2 cks) ∧
      (1 < st2.chunks.length →
        (buildEntries hdr cks st2.startOffset st2.lastOffset st2.chunks).length =
          st2.chunks.length ∧
        (∀ (i : Nat) (hi : i < st2.chunks.length)
          (hi2 : i < (buildEntries hdr cks st2.startOffset st2.lastOffset
            st2.chunks).length),
          ((buildEntries hdr cks st2.startOffset st2.lastOffset st2.chunks).get
              ⟨i, hi2⟩).chunkSize = (st2.chunks.get ⟨i, hi⟩).chunkSize ∧
          ((buildEntries hdr cks st2.startOffset st2.lastOffset st2.chunks).get
              ⟨i, hi2⟩).offset = (st2.chunks.get ⟨i, hi⟩).offset ∧
          ((buildEntries hdr cks st2.startOffset st2.lastOffset st2.chunks).get
              ⟨i, hi2⟩).chunkDigest = some (st2.chunks.get ⟨i, hi⟩).checksum ∧
          ((buildEntries hdr cks st2.startOffset st2.lastOffset st2.chunks).get
              ⟨i, hi2⟩).chunkType = some (st2.chunks.get ⟨i, hi⟩).chunkType ∧
          (0 < i →
            ((buildEntries hdr cks st2.startOffset st2.lastOffset st2.chunks).get
              ⟨i, hi2⟩).ftype = EntryType.chunkT ∧
            ((buildEntries hdr cks st2.startOffset st2.lastOffset st2.chunks).get
              ⟨i, hi2⟩).chunkOffset = (st2.chunks.get ⟨i, hi⟩).chunkOffset))) ∧
      (st2.chunks.length = 1 →
        buildEntries hdr cks st2.startOffset st2.lastOffset st2.chunks =
          [primaryRec hdr cks st2.startOffset st2.lastOffset]) := by
  obtain ⟨st2, cks, hrun, hpart⟩ :=
    entry_main offs hoff p.length (entryFuel ⟨p, IOErr.eof⟩)
      (initEntry ⟨p, IOErr.eof⟩ k) (initEntry_inv p k) (initEntry_measure p k)
  refine ⟨st2, cks, hrun, ?_, ?_⟩
  · intro h1
    refine ⟨?_, ?_⟩
    · rw [buildEntries_length]
      omega
    · intro i hi hi2
      exact buildEntries_backfill_fields hdr cks st2.startOffset st2.lastOffset
        st2.chunks h1 i hi hi2
  · intro h1
    obtain ⟨c, hc⟩ := List.length_eq_one.mp h1
    rw [hc]
    exact buildEntries_single hdr cks st2.startOffset st2.lastOffset c

theorem c7_backfill_merge_witness :
    (∀ j : Nat, 0 < j + 1) ∧
    (∃ st2 cks, processEntry (fun j => j + 1) ⟨[1, 0, 2], IOErr.eof⟩ 0 =
        some (.done st2 cks) ∧
      (1 < st2.chunks.length →
        (buildEntries ⟨0, 0, 0, 0, 0, 0, 0, 0, 0⟩ cks st2.startOffset
          st2.lastOffset st2.chunks).length = st2.chunks.length ∧
        (∀ (i : Nat) (hi : i < st2.chunks.length)
          (hi2 : i < (buildEntries ⟨0, 0, 0, 0, 0, 0, 0, 0, 0⟩ cks st2.startOffset
            st2.lastOffset st2.chunks).length),
          ((buildEntries ⟨0, 0, 0, 0, 0, 0, 0, 0, 0⟩ cks st2.startOffset
              st2.lastOffset st2.chunks).get
              ⟨i, hi2⟩).chunkSize = (st2.chunks.get ⟨i, hi⟩).chunkSize ∧
          ((buildEntries ⟨0, 0, 0, 0, 0, 0, 0, 0, 0⟩ cks st2.startOffset
              st2.lastOffset st2.chunks).get
              ⟨i, hi2⟩).offset = (st2.chunks.get ⟨i, hi⟩).offset ∧
          ((buildEntries ⟨0, 0, 0, 0, 0, 0, 0, 0, 0⟩ cks st2.startOffset
              st2.lastOffset st2.chunks).get
              ⟨i, hi2⟩).chunkDigest = some (st2.chunks.get ⟨i, hi⟩).checksum ∧
          ((buildEntries ⟨0, 0, 0, 0, 0, 0, 0, 0, 0⟩ cks st2.startOffset
              st2.lastOffset st2.chunks).get
              ⟨i, hi2⟩).chunkType = some (st2.chunks.get ⟨i, hi⟩).chunkType ∧
          (0 < i →
            ((buildEntries ⟨0, 0, 0, 0, 0, 0, 0, 0, 0⟩ cks st2.startOffset
              st2.lastOffset st2.chunks).get
              ⟨i, hi2⟩).ftype = EntryType.chunkT ∧
            ((buildEntries ⟨0, 0, 0, 0, 0, 0, 0, 0, 0⟩ cks st2.startOffset
              st2.lastOffset st2.chunks).get
              ⟨i, hi2⟩).chunkOffset = (st2.chunks.get ⟨i, hi⟩).chunkOffset))) ∧
      (st2.chunks.length = 1 →
        buildEntries ⟨0, 0, 0, 0, 0, 0, 0, 0, 0⟩ cks st2.startOffset
          st2.lastOffset st2.chunks =
          [primaryRec ⟨0, 0, 0, 0, 0, 0, 0, 0, 0⟩ cks st2.startOffset
            st2.lastOffset])) :=
  ⟨fun j => Nat.succ_pos j,
    c7_backfill_merge (fun j => j + 1) (fun j => Nat.succ_pos j)
      ⟨0, 0, 0, 0, 0, 0, 0, 0, 0⟩ [1, 0, 2] 0⟩

end ChunkedCompressor
